/-
Verification development for the VECTOR-LOAD truck-loading engine
(`engine/src/ga_packer.cpp`, `engine/bindings/engine_bindings.cpp`).

The C++ engine is shallowly embedded in Lean: `double` values are modelled
as exact rationals (ℚ), mutable vectors as Lean lists threaded through
explicit state, and the fallible support/crush kernel as an `Option`
result.  Every definition mirrors the corresponding source function; doc
comments name the source symbol.
-/
import Mathlib

namespace VL

/-! ## Numeric constants (ga_packer.cpp lines 39-42 and inline literals) -/

/-- `kEps` (1e-8). -/
def kEps : ℚ := 1 / 10 ^ 8

/-- `kMinSupportRatio` (0.90). -/
def kMinSupportRatio : ℚ := 9 / 10

/-- `kMaxStackMultiplier` (6.0). -/
def kMaxStackMultiplier : ℚ := 6

/-- `kMaxPressure` (2500.0 kg per m²). -/
def kMaxPressure : ℚ := 2500

/-- The `1e-9` slack used for the weight budget and the crush checks. -/
def eps9 : ℚ := 1 / 10 ^ 9

/-- The `1e-6` tolerance used to match a support's top face. -/
def epsFace : ℚ := 1 / 10 ^ 6

/-- `std::fabs` on exact rationals. -/
def fabs (x : ℚ) : ℚ := if x < 0 then -x else x

/-! ## Data model (engine_types.h, ga_packer.cpp lines 16-37) -/

/-- `engine::Box` (engine_types.h). -/
structure Box where
  id : String
  w : ℚ
  h : ℚ
  d : ℚ
  weight : ℚ
  priority : ℤ
deriving DecidableEq

/-- `engine::Truck` (engine_types.h). -/
structure Truck where
  w : ℚ
  h : ℚ
  d : ℚ
  max_weight : ℚ
deriving DecidableEq

/-- `engine::Placement` (engine_types.h). -/
structure Placement where
  id : String
  x : ℚ
  y : ℚ
  z : ℚ
  w : ℚ
  h : ℚ
  d : ℚ
deriving DecidableEq

/-- `engine::Result` (engine_types.h). -/
structure Result where
  placed : List Placement
  unplaced : List String
  used_volume : ℚ
  total_volume : ℚ
  utilization : ℚ
  total_weight : ℚ
deriving DecidableEq

/-- `AABB` (ga_packer.cpp lines 16-23). -/
structure AABB where
  x : ℚ
  y : ℚ
  z : ℚ
  w : ℚ
  h : ℚ
  d : ℚ
deriving DecidableEq

/-- `Candidate` (ga_packer.cpp lines 25-29). -/
structure Candidate where
  x : ℚ
  y : ℚ
  z : ℚ
deriving DecidableEq

/-- `PlacedState` (ga_packer.cpp lines 31-37). -/
structure PlacedState where
  box : AABB
  id : String
  weight : ℚ
  max_load : ℚ
  load_on_top : ℚ
deriving DecidableEq

/-- Out-of-range placeholder for list indexing (C++ `operator[]` is only
ever used in range; the placeholder is never reached on the proved paths). -/
def dummyBox : Box := ⟨"", 0, 0, 0, 0, 0⟩

/-- Out-of-range placeholder for `PlacedState` indexing. -/
def dummyPlaced : PlacedState := ⟨⟨0, 0, 0, 0, 0, 0⟩, "", 0, 0, 0⟩

/-! ## Geometry primitives (ga_packer.cpp lines 14, 44-81) -/

/-- `volume` (line 14). -/
def volume (w h d : ℚ) : ℚ := w * h * d

/-- `intersects` (lines 44-49): standard AABB overlap, touching faces are
non-intersecting. -/
def intersects (a b : AABB) : Bool :=
  let sep_x := decide (a.x + a.w ≤ b.x) || decide (b.x + b.w ≤ a.x)
  let sep_y := decide (a.y + a.h ≤ b.y) || decide (b.y + b.h ≤ a.y)
  let sep_z := decide (a.z + a.d ≤ b.z) || decide (b.z + b.d ≤ a.z)
  !(sep_x || sep_y || sep_z)

/-- `inside_truck` (lines 51-53). -/
def inside_truck (t : Truck) (b : AABB) : Bool :=
  decide (0 ≤ b.x) && decide (0 ≤ b.y) && decide (0 ≤ b.z) &&
  decide (b.x + b.w ≤ t.w) && decide (b.y + b.h ≤ t.h) && decide (b.z + b.d ≤ t.d)

/-- `overlap_1d` (lines 55-59). -/
def overlap_1d (a0 a1 b0 b1 : ℚ) : ℚ := max 0 (min a1 b1 - max a0 b0)

/-- `overlap_area_xz` (lines 61-65). -/
def overlap_area_xz (top bottom : AABB) : ℚ :=
  overlap_1d top.x (top.x + top.w) bottom.x (bottom.x + bottom.w) *
  overlap_1d top.z (top.z + top.d) bottom.z (bottom.z + bottom.d)

/-- `point_in_overlap_xz` (lines 67-73). -/
def point_in_overlap_xz (px pz : ℚ) (top bottom : AABB) : Bool :=
  let x0 := max top.x bottom.x
  let x1 := min (top.x + top.w) (bottom.x + bottom.w)
  let z0 := max top.z bottom.z
  let z1 := min (top.z + top.d) (bottom.z + bottom.d)
  decide (x0 ≤ px + kEps) && decide (px - kEps ≤ x1) &&
  decide (z0 ≤ pz + kEps) && decide (pz - kEps ≤ z1)

/-- `max_load_for` (lines 75-81). -/
def max_load_for (weight base_area : ℚ) : ℚ :=
  max kEps (min (weight * kMaxStackMultiplier) (base_area * kMaxPressure))

/-! ## Load bookkeeping (ga_packer.cpp lines 134-151)

The C++ mutates `placed[idx].load_on_top` in place; here the list is
rebuilt with the load field of one index adjusted. -/

/-- Add `a` to the `load_on_top` accumulator of entry `i` (no-op when `i`
is out of range, as `operator[]` is never called out of range). -/
def addLoadAt : List PlacedState → ℕ → ℚ → List PlacedState
  | [], _, _ => []
  | p :: ps, 0, a => { p with load_on_top := p.load_on_top + a } :: ps
  | p :: ps, n + 1, a => p :: addLoadAt ps n a

/-- The load-application loop (lines 134-142): add each share in order. -/
def applyLoads (placed : List PlacedState) (applied : List (ℕ × ℚ)) : List PlacedState :=
  applied.foldl (fun pl ia => addLoadAt pl ia.1 ia.2) placed

/-- `rollback_loads` (lines 147-151): subtract each applied share. -/
def rollback_loads (placed : List PlacedState) (applied : List (ℕ × ℚ)) : List PlacedState :=
  applyLoads placed (applied.map fun ia => (ia.1, -ia.2))

/-! ## Support & crush kernel (ga_packer.cpp lines 83-145) -/

/-- The indexed-iteration view of the C++ `for (size_t i = 0; ...)` loop. -/
def enumL : ℕ → List PlacedState → List (ℕ × PlacedState)
  | _, [] => []
  | i, p :: ps => (i, p) :: enumL (i + 1) ps

/-- The support set collected by the loop at lines 100-115: every placed
box whose top face matches `candidate.y` within 1e-6 and whose xz overlap
area exceeds `kEps`, with its index and overlap area. -/
def supportsFor (candidate : AABB) (placed : List PlacedState) : List (ℕ × PlacedState × ℚ) :=
  (enumL 0 placed).filterMap fun is =>
    let s := is.2
    let top_y := s.box.y + s.box.h
    if fabs (top_y - candidate.y) > epsFace then none
    else
      let area := overlap_area_xz candidate s.box
      if area ≤ kEps then none else some (is.1, s, area)

/-- `supported_area`: the sum of the support overlap areas (line 110). -/
def sumAreas (supports : List (ℕ × PlacedState × ℚ)) : ℚ :=
  supports.foldl (fun acc t => acc + t.2.2) 0

/-- The per-support committed share `weight · clamp(area / base_area, 0, 1)`
(lines 127-128 and 136-137). -/
def shareOf (weight base_area area : ℚ) : ℚ :=
  weight * min 1 (max 0 (area / base_area))

/-- `base_area = max(kEps, candidate.w * candidate.d)` (line 91). -/
def baseAreaOf (candidate : AABB) : ℚ := max kEps (candidate.w * candidate.d)

/-- `centroid_supported` (lines 96, 112-114): some support contains the
candidate's xz centroid in its overlap rectangle. -/
def centroidOk (candidate : AABB) (placed : List PlacedState) : Bool :=
  (supportsFor candidate placed).any fun t =>
    point_in_overlap_xz (candidate.x + candidate.w / 2) (candidate.z + candidate.d / 2)
      candidate t.2.1.box

/-- The crush pre-check loop (lines 126-132): some support would exceed its
budget. -/
def crushFail (candidate : AABB) (weight : ℚ) (placed : List PlacedState) : Bool :=
  (supportsFor candidate placed).any fun t =>
    decide (t.2.1.load_on_top + shareOf weight (baseAreaOf candidate) t.2.2 >
      t.2.1.max_load + eps9)

/-- The (index, added load) pairs committed on success (lines 134-142). -/
def sharesFor (candidate : AABB) (weight : ℚ) (placed : List PlacedState) : List (ℕ × ℚ) :=
  (supportsFor candidate placed).map fun t =>
    (t.1, shareOf weight (baseAreaOf candidate) t.2.2)

/-- `support_ok_and_apply_load` (lines 83-145).  `none` models returning
`false` with `placed` unmutated and `applied` empty; `some (placed', applied)`
models returning `true` with the shares committed into `placed'` and
recorded in `applied`. -/
def support_ok_and_apply_load (candidate : AABB) (weight : ℚ)
    (placed : List PlacedState) : Option (List PlacedState × List (ℕ × ℚ)) :=
  if candidate.y ≤ kEps then some (placed, [])
  else if !centroidOk candidate placed then none
  else if sumAreas (supportsFor candidate placed) + eps9 <
      kMinSupportRatio * baseAreaOf candidate then none
  else if crushFail candidate weight placed then none
  else some (applyLoads placed (sharesFor candidate weight placed),
    sharesFor candidate weight placed)

/-! ## Candidate point store (ga_packer.cpp lines 165-194) -/

/-- `std::llround` on an exact rational: round half away from zero. -/
def llround (v : ℚ) : ℤ := if 0 ≤ v then ⌊v + 1 / 2⌋ else -⌊-v + 1 / 2⌋

/-- The quantized de-dup key (lines 177-181): `(round(x·1e5), round(y·1e5),
round(z·1e5))`. -/
def quantKey (c : Candidate) : ℤ × ℤ × ℤ :=
  (llround (c.x * 100000), llround (c.y * 100000), llround (c.z * 100000))

/-- Lexicographic `<` on key triples (`std::tuple::operator<`). -/
def keyLt (a b : ℤ × ℤ × ℤ) : Bool :=
  if a.1 ≠ b.1 then decide (a.1 < b.1)
  else if a.2.1 ≠ b.2.1 then decide (a.2.1 < b.2.1)
  else decide (a.2.2 < b.2.2)

/-- Stable insertion of `x` into a list sorted by the strict comparator
`lt`: `x` goes before the first element not strictly below it. -/
def insertOrd (lt : α → α → Bool) (x : α) : List α → List α
  | [] => [x]
  | y :: ys => if lt y x then y :: insertOrd lt x ys else x :: y :: ys

/-- Stable comparison sort.  `std::sort`'s order among comparator-equal
elements is unspecified; `std::stable_sort` keeps input order.  This stable
sort refines both. -/
def sortOrd (lt : α → α → Bool) : List α → List α
  | [] => []
  | x :: xs => insertOrd lt x (sortOrd lt xs)

/-- `std::unique` with the quantized-key equality (lines 183-184): drop
each element whose key equals the last kept element's key. -/
def dedupAdjFrom (prev : Candidate) : List Candidate → List Candidate
  | [] => []
  | x :: xs => if quantKey x = quantKey prev then dedupAdjFrom prev xs
               else x :: dedupAdjFrom x xs

/-- Adjacent de-duplication keeping the first of each key group. -/
def dedupAdj : List Candidate → List Candidate
  | [] => []
  | c :: rest => c :: dedupAdjFrom c rest

/-- The candidate comparator at lines 187-191 (and the placement comparator
at lines 228-232): lower `y`, then lower `z`, then lower `x`. -/
def yzxLt (a b : Candidate) : Bool :=
  if a.y ≠ b.y then decide (a.y < b.y)
  else if a.z ≠ b.z then decide (a.z < b.z)
  else decide (a.x < b.x)

/-- `kMaxCandidates` (line 169). -/
def kMaxCandidates : ℕ := 350

/-- `unique_candidates` (lines 176-194): sort by quantized key, drop
adjacent key-duplicates, and when more than 350 points survive keep the
first 350 of the stable `(y, z, x)` ascending order. -/
def unique_candidates (cs : List Candidate) : List Candidate :=
  let ded := dedupAdj (sortOrd (fun a b => keyLt (quantKey a) (quantKey b)) cs)
  if kMaxCandidates < ded.length then (sortOrd yzxLt ded).take kMaxCandidates else ded

/-- `add_candidate` (lines 171-174): append unless a coordinate is below
`-kEps`. -/
def add_candidate (cands : List Candidate) (x y z : ℚ) : List Candidate :=
  if x < -kEps ∨ y < -kEps ∨ z < -kEps then cands else cands ++ [⟨x, y, z⟩]

/-! ## The per-box placement sweep (ga_packer.cpp lines 213-260) -/

/-- `collides_any` (lines 198-203). -/
def collides_any (placed : List PlacedState) (a : AABB) : Bool :=
  placed.any fun p => intersects a p.box

/-- The placement comparator `better` (lines 227-232). -/
def better (a b : AABB) : Bool :=
  if a.y ≠ b.y then decide (a.y < b.y)
  else if a.z ≠ b.z then decide (a.z < b.z)
  else decide (a.x < b.x)

/-- The six orientations of a box (lines 214-221), in enumeration order. -/
def rotsOf (box : Box) : List (ℚ × ℚ × ℚ) :=
  [(box.w, box.h, box.d), (box.w, box.d, box.h), (box.h, box.w, box.d),
   (box.h, box.d, box.w), (box.d, box.w, box.h), (box.d, box.h, box.w)]

/-- The candidate × orientation enumeration of the two nested loops at
lines 236-237: candidate points outermost, orientations innermost. -/
def pairsFor (cands : List Candidate) (rots : List (ℚ × ℚ × ℚ)) : List AABB :=
  cands.foldr (fun c acc => (rots.map fun r => ⟨c.x, c.y, c.z, r.1, r.2.1, r.2.2⟩) ++ acc) []

/-- The state of the candidate sweep for one box: the placed list (with
provisional loads), the best accepted pair with its committed shares, and a
ghost trace of every tentative AABB that passed containment, collision and
the kernel at the moment it was evaluated.  The ghost field `passed` adds
no behaviour; it records the sweep for the statements below. -/
structure SweepState where
  placed : List PlacedState
  best : Option (AABB × List (ℕ × ℚ))
  passed : List AABB
deriving DecidableEq

/-- One iteration of the inner loop at lines 236-259. -/
def sweepStep (t : Truck) (weight : ℚ) (s : SweepState) (p : AABB) : SweepState :=
  if !inside_truck t p then s
  else if collides_any s.placed p then s
  else
    match support_ok_and_apply_load p weight s.placed with
    | none => s
    | some (placed', applied) =>
      match s.best with
      | none => ⟨placed', some (p, applied), s.passed ++ [p]⟩
      | some (b, bLoads) =>
        if better p b then ⟨rollback_loads placed' bLoads, some (p, applied), s.passed ++ [p]⟩
        else ⟨rollback_loads placed' applied, some (b, bLoads), s.passed ++ [p]⟩

/-- The whole candidate sweep for one box. -/
def sweep (t : Truck) (weight : ℚ) (placed : List PlacedState) (pairs : List AABB) : SweepState :=
  pairs.foldl (sweepStep t weight) ⟨placed, none, []⟩

/-! ## `pack_by_order` (ga_packer.cpp lines 153-283) -/

/-- The mutable state of `pack_by_order`'s main loop. -/
structure PackState where
  placed : List PlacedState
  candidates : List Candidate
  remaining : ℚ
  placedOut : List Placement
  unplaced : List String
  used_volume : ℚ
  total_weight : ℚ
deriving DecidableEq

/-- The body of `for (size_t idx : order)` (lines 205-279). -/
def packStep (t : Truck) (boxes : List Box) (st : PackState) (idx : ℕ) : PackState :=
  let box := boxes.getD idx dummyBox
  if box.weight > st.remaining + eps9 then
    { st with unplaced := st.unplaced ++ [box.id] }
  else
    let cands := unique_candidates st.candidates
    let sw := sweep t box.weight st.placed (pairsFor cands (rotsOf box))
    match sw.best with
    | none => { st with candidates := cands, unplaced := st.unplaced ++ [box.id] }
    | some (b, _) =>
      { placed := sw.placed ++
          [⟨b, box.id, box.weight, max_load_for box.weight (b.w * b.d), 0⟩],
        candidates := add_candidate (add_candidate (add_candidate cands
          (b.x + b.w) b.y b.z) b.x b.y (b.z + b.d)) b.x (b.y + b.h) b.z,
        remaining := st.remaining - box.weight,
        placedOut := st.placedOut ++ [⟨box.id, b.x, b.y, b.z, b.w, b.h, b.d⟩],
        unplaced := st.unplaced,
        used_volume := st.used_volume + volume b.w b.h b.d,
        total_weight := st.total_weight + box.weight }

/-- The initial state (lines 154-196): empty placements, the single
candidate `(0,0,0)`, the full weight budget. -/
def initState (t : Truck) : PackState := ⟨[], [⟨0, 0, 0⟩], t.max_weight, [], [], 0, 0⟩

/-- The final loop state of `pack_by_order`. -/
def packFinal (t : Truck) (boxes : List Box) (order : List ℕ) : PackState :=
  order.foldl (packStep t boxes) (initState t)

/-- `total_volume` over all input boxes (lines 158-160). -/
def totalVolume (boxes : List Box) : ℚ :=
  boxes.foldl (fun acc b => acc + volume b.w b.h b.d) 0

/-- `pack_by_order` (lines 153-283). -/
def pack_by_order (t : Truck) (boxes : List Box) (order : List ℕ) : Result :=
  let st := packFinal t boxes order
  { placed := st.placedOut,
    unplaced := st.unplaced,
    used_volume := st.used_volume,
    total_volume := totalVolume boxes,
    utilization := if 0 < t.w * t.h * t.d then st.used_volume / (t.w * t.h * t.d) else 0,
    total_weight := st.total_weight }

/-! ## GA driver (ga_packer.cpp lines 285-431)

All driver randomness flows through one `std::mt19937` stream.  The
Mersenne-Twister engine itself is standardized and embedded below
(`mt_init`, `mtTwist`, `mtNext`); the `std::uniform_int_distribution`,
`std::uniform_real_distribution` and `std::shuffle` algorithms on top of it
are implementation-defined by the C++ standard, so the driver is stated
over an arbitrary deterministic draw interface `RngOps` and the library's
draws are one concrete instance (`stdRng`).  Every theorem about the
driver below holds for every `RngOps` instance. -/

/-- `Individual` (lines 285-289). -/
structure Individual where
  order : List ℕ
  score : ℚ
  result : Result
deriving DecidableEq

/-- `score_result` (lines 291-294): `100 · utilization − 0.5 · |unplaced|`. -/
def score_result (r : Result) : ℚ :=
  r.utilization * 100 - (r.unplaced.length : ℚ) * (1 / 2)

/-- Out-of-range placeholder for `Individual` indexing. -/
def dummyInd : Individual := ⟨[], 0, ⟨[], [], 0, 0, 0, 0⟩⟩

/-- Evaluate one permutation: `ind.result = pack_by_order(...)`,
`ind.score = score_result(ind.result)` (lines 344-345). -/
def evalIndividual (t : Truck) (boxes : List Box) (ord : List ℕ) : Individual :=
  let res := pack_by_order t boxes ord
  ⟨ord, score_result res, res⟩

/-- The population comparator (lines 408 and 429): score descending. -/
def scoreDescLt (x y : Individual) : Bool := decide (y.score < x.score)

/-- The heuristic-seed comparator (lines 335-342): volume descending when
volumes differ by more than 1e-12, else priority descending. -/
def heurLt (boxes : List Box) (a b : ℕ) : Bool :=
  let A := boxes.getD a dummyBox
  let B := boxes.getD b dummyBox
  let va := volume A.w A.h A.d
  let vb := volume B.w B.h B.d
  if fabs (va - vb) > 1 / 10 ^ 12 then decide (vb < va) else decide (B.priority < A.priority)

/-- Individual 0's order: the stable sort of `0 … n−1` by `heurLt`. -/
def heuristicOrder (boxes : List Box) : List ℕ :=
  sortOrd (heurLt boxes) (List.range boxes.length)

/-- A deterministic draw interface over RNG states `σ`: `nextInt s b`
draws from `{0, …, b}` (uniform_int_distribution), `nextReal s` from
`[0, 1)` (uniform_real_distribution). -/
structure RngOps (σ : Type) where
  nextInt : σ → ℕ → ℕ × σ
  nextReal : σ → ℚ × σ

/-- `std::swap` of two positions of an order vector. -/
def swapL (l : List ℕ) (i j : ℕ) : List ℕ :=
  let a := l.getD i 0
  let b := l.getD j 0
  (l.set i b).set j a

/-- The Fisher-Yates descending loop of `std::shuffle` (libstdc++ form):
for `i = n−1 … 1`, swap position `i` with a drawn position in `{0, …, i}`. -/
def shuffleGo (ops : RngOps σ) : List ℕ → ℕ → σ → List ℕ × σ
  | l, 0, s => (l, s)
  | l, i + 1, s =>
    let (j, s') := ops.nextInt s (i + 1)
    shuffleGo ops (swapL l (i + 1) j) i s'

/-- `std::shuffle(ind.order.begin(), ind.order.end(), rng)` (line 332). -/
def shuffleL (ops : RngOps σ) (l : List ℕ) (s : σ) : List ℕ × σ :=
  shuffleGo ops l (l.length - 1) s

/-- The random individuals of the initial population (lines 355-357), in
creation order. -/
def mkRandoms (ops : RngOps σ) (t : Truck) (boxes : List Box) : ℕ → σ → List Individual × σ
  | 0, s => ([], s)
  | k + 1, s =>
    let (ord, s1) := shuffleL ops (List.range boxes.length) s
    let ind := evalIndividual t boxes ord
    let (rest, s2) := mkRandoms ops t boxes k s1
    (ind :: rest, s2)

/-- `select_parent` (lines 359-368): tournament of 3 uniform draws over
`{0, …, bound}`; a later draw replaces the best only when strictly better. -/
def tournament (ops : RngOps σ) (pop : List Individual) (bound : ℕ) (s : σ) : Individual × σ :=
  let (i1, s1) := ops.nextInt s bound
  let (i2, s2) := ops.nextInt s1 bound
  let (i3, s3) := ops.nextInt s2 bound
  let b1 := pop.getD i1 dummyInd
  let b2 := pop.getD i2 dummyInd
  let b3 := pop.getD i3 dummyInd
  let best2 := if b1.score < b2.score then b2 else b1
  let best3 := if best2.score < b3.score then b3 else best2
  (best3, s3)

/-- The sentinel `static_cast<size_t>(-1)` used for unfilled child slots
(line 377); in the list model an unfilled slot is `none` and the sentinel
value reappears only through `Option.getD`. -/
def kSentinel : ℕ := 2 ^ 64 - 1

/-- `child[k] = a.order[k]` for `k ∈ [i, j]`, every other slot unfilled
(lines 377-384). -/
def initChild (a : List ℕ) (n i j : ℕ) : List (Option ℕ) :=
  (List.range n).map fun k => if i ≤ k ∧ k ≤ j then some (a.getD k 0) else none

/-- The genes `a.order[i..j]` inserted into `used` (lines 381-384). -/
def sliceOf (a : List ℕ) (i j : ℕ) : List ℕ := (a.drop i).take (j + 1 - i)

/-- `while (write < n && child[write] != -1) ++write;` (line 390). -/
def advW (child : List (Option ℕ)) (w : ℕ) : ℕ :=
  if h : w < child.length ∧ (child.getD w none).isSome then advW child (w + 1) else w
termination_by child.length - w
decreasing_by
  exact Nat.sub_lt_sub_left h.1 (Nat.lt_succ_self w)

/-- Lines 390-391: advance the write pointer past filled slots, then fill
the slot with the gene when one is free. -/
def placeGene (cw : List (Option ℕ) × ℕ) (g : ℕ) : List (Option ℕ) × ℕ :=
  let w := advW cw.1 cw.2
  if w < cw.1.length then (cw.1.set w (some g), w) else (cw.1, w)

/-- The ordered-crossover child order (lines 370-397): positions `i..j`
from `a`, the rest filled with `b`'s genes in order, skipping genes of the
copied slice, into free slots left to right. -/
def crossoverOrder (a b : List ℕ) (n i j : ℕ) : List ℕ :=
  let used := sliceOf a i j
  let filled := (b.foldl (fun cw g => if g ∈ used then cw else placeGene cw g)
    (initChild a n i j, 0)).1
  filled.map fun o => o.getD kSentinel

/-- The order of one offspring (lines 417-420 and 399-405): two tournament
parents, two uniform cut draws, ordered crossover, then swap mutation with
probability `mutation_rate` (the real draw is always consumed). -/
def offspringOrder (ops : RngOps σ) (pop : List Individual)
    (bound n : ℕ) (mrate : ℚ) (s : σ) : List ℕ × σ :=
  let (p1, s1) := tournament ops pop bound s
  let (p2, s2) := tournament ops pop bound s1
  let (ci, s3) := ops.nextInt s2 (n - 1)
  let (cj, s4) := ops.nextInt s3 (n - 1)
  let ord0 := crossoverOrder p1.order p2.order n (min ci cj) (max ci cj)
  let (u, s5) := ops.nextReal s4
  if u > mrate then (ord0, s5)
  else
    let (x, s5a) := ops.nextInt s5 (n - 1)
    let (y, s5b) := ops.nextInt s5a (n - 1)
    (swapL ord0 x y, s5b)

/-- One offspring (lines 417-423): its order drawn by `offspringOrder`,
then evaluated through the packer (lines 421-422). -/
def mkOffspring (ops : RngOps σ) (t : Truck) (boxes : List Box) (pop : List Individual)
    (bound n : ℕ) (mrate : ℚ) (s : σ) : Individual × σ :=
  (evalIndividual t boxes (offspringOrder ops pop bound n mrate s).1,
   (offspringOrder ops pop bound n mrate s).2)

/-- The offspring fill loop (lines 416-424): exactly `population − elite`
children, in creation order. -/
def fillOffspring (ops : RngOps σ) (t : Truck) (boxes : List Box) (pop : List Individual)
    (bound n : ℕ) (mrate : ℚ) : ℕ → σ → List Individual × σ
  | 0, s => ([], s)
  | k + 1, s =>
    let (c, s1) := mkOffspring ops t boxes pop bound n mrate s
    let (rest, s2) := fillOffspring ops t boxes pop bound n mrate k s1
    (c :: rest, s2)

/-- One generation (lines 407-427): sort by score descending, copy the top
`max(1, population/10)` elites, fill the rest with offspring selected from
the sorted population. -/
def generation (ops : RngOps σ) (t : Truck) (boxes : List Box) (popN n : ℕ) (mrate : ℚ)
    (pop : List Individual) (s : σ) : List Individual × σ :=
  let sorted := sortOrd scoreDescLt pop
  let elite := max 1 (popN / 10)
  let (offs, s1) := fillOffspring ops t boxes sorted (popN - 1) n mrate (popN - elite) s
  (sorted.take elite ++ offs, s1)

/-- The generational loop (line 407). -/
def gaLoop (ops : RngOps σ) (t : Truck) (boxes : List Box) (popN n : ℕ) (mrate : ℚ) :
    ℕ → List Individual × σ → List Individual × σ
  | 0, ps => ps
  | g + 1, (pop, s) => gaLoop ops t boxes popN n mrate g (generation ops t boxes popN n mrate pop s)

/-- The budget caps (lines 315-324) followed by `max(population, 4)`
(line 349): the clamped population size. -/
def popCount (population : ℤ) (n : ℕ) : ℕ :=
  (max (if 250 < n then min population 10
        else if 150 < n then min population 18
        else min population 30) 4).toNat

/-- The budget caps (lines 315-324) followed by `max(generations, 1)`
(line 350): the clamped generation count. -/
def genCount (generations : ℤ) (n : ℕ) : ℕ :=
  (max (if 250 < n then min generations 6
        else if 150 < n then min generations 12
        else min generations 25) 1).toNat

/-- `optimize_ga` (lines 298-431) over an arbitrary draw interface: empty
boxes short-circuit; the budget caps by instance size, then
`population ← max(population, 4)`, `generations ← max(generations, 1)`;
individual 0 is the heuristic seed, the rest uniform shuffles; after the
last generation the best individual's `Result` is returned. -/
def optimize_ga_rng (ops : RngOps σ) (t : Truck) (boxes : List Box)
    (population generations : ℤ) (mrate : ℚ) (s0 : σ) : Result :=
  if boxes.isEmpty then ⟨[], [], 0, 0, 0, 0⟩
  else
    ((sortOrd scoreDescLt
      (gaLoop ops t boxes (popCount population boxes.length) boxes.length mrate
        (genCount generations boxes.length)
        (evalIndividual t boxes (heuristicOrder boxes) ::
          (mkRandoms ops t boxes (popCount population boxes.length - 1) s0).1,
         (mkRandoms ops t boxes (popCount population boxes.length - 1) s0).2)).1).getD 0
      dummyInd).result

/-! ### The concrete `std::mt19937` stream -/

/-- The 32-bit word mask. -/
def mtMask : ℕ := 2 ^ 32 - 1

/-- The seeding recurrence `x_i = 1812433253·(x_{i−1} ⊕ (x_{i−1} ≫ 30)) + i`
modulo 2^32. -/
def mtSeedGo (prev i : ℕ) : ℕ → List ℕ
  | 0 => []
  | fuel + 1 =>
    let x := (1812433253 * (prev ^^^ (prev >>> 30)) + i) % 2 ^ 32
    x :: mtSeedGo x (i + 1) fuel

/-- `std::mt19937` state: 624 words and the next read index. -/
structure MtState where
  mt : List ℕ
  index : ℕ
deriving DecidableEq

/-- `std::mt19937 rng(seed)` (line 308). -/
def mt_init (seed : ℕ) : MtState :=
  ⟨(seed % 2 ^ 32) :: mtSeedGo (seed % 2 ^ 32) 1 623, 624⟩

/-- The in-place twist over all 624 words. -/
def mtTwist (l : List ℕ) : List ℕ :=
  (List.range 624).foldl (fun acc i =>
    let x := (acc.getD i 0 &&& 2 ^ 31) + (acc.getD ((i + 1) % 624) 0 &&& (2 ^ 31 - 1))
    let v := acc.getD ((i + 397) % 624) 0 ^^^ (x >>> 1) ^^^
      (if x % 2 = 1 then 0x9908B0DF else 0)
    acc.set i v) l

/-- The output tempering. -/
def mtTemper (y0 : ℕ) : ℕ :=
  let y1 := y0 ^^^ (y0 >>> 11)
  let y2 := y1 ^^^ ((y1 <<< 7) &&& 0x9D2C5680)
  let y3 := y2 ^^^ ((y2 <<< 15) &&& 0xEFC60000)
  (y3 ^^^ (y3 >>> 18)) &&& mtMask

/-- One 32-bit draw. -/
def mtNext (s : MtState) : ℕ × MtState :=
  if 624 ≤ s.index then
    let m := mtTwist s.mt
    (mtTemper (m.getD 0 0), ⟨m, 1⟩)
  else (mtTemper (s.mt.getD s.index 0), ⟨s.mt, s.index + 1⟩)

/-- Modelled from the spec: the distribution layers on top of `std::mt19937`
(`std::uniform_int_distribution`, `std::uniform_real_distribution`) are
implementation-defined by the C++ standard; they are deterministic
functions of the underlying stream and are modelled here as modulus and
scaling draws.  Every driver theorem below is proved for every `RngOps`
instance, so nothing depends on this choice. -/
def stdRng : RngOps MtState :=
  { nextInt := fun s bound => let (v, s') := mtNext s; (v % (bound + 1), s'),
    nextReal := fun s => let (v, s') := mtNext s; ((v : ℚ) / 2 ^ 32, s') }

/-- `engine::optimize_ga` (lines 298-431) with the seeded concrete stream. -/
def optimize_ga (t : Truck) (boxes : List Box) (population generations : ℤ)
    (mrate : ℚ) (seed : ℕ) : Result :=
  optimize_ga_rng stdRng t boxes population generations mrate (mt_init seed)

/-! ## Request validation (spec §7) -/

/-- The error kinds of spec §7. -/
inductive EngineError where
  | duplicateId
  | invalidGeometry
  | invalidParams
deriving DecidableEq

/-- Two input boxes share an id. -/
def hasDuplicateId : List Box → Bool
  | [] => false
  | b :: rest => rest.any (fun c => c.id == b.id) || hasDuplicateId rest

/-- Modelled from the spec: request validation lives in the repository's
backend service (the Flask layer that "owns timeouts/error mapping"),
which is not among the provided engine sources; the engine core and the
pybind adapter run unconditionally.  Spec §7: "`DuplicateId`: two input
boxes sharing an id. Fail fast." — the duplicate test runs before any
optimization and an error means `optimize_ga` is never invoked. -/
def optimize_checked (t : Truck) (boxes : List Box) (population generations : ℤ)
    (mrate : ℚ) (seed : ℕ) : Except EngineError Result :=
  if hasDuplicateId boxes then .error .duplicateId
  else .ok (optimize_ga t boxes population generations mrate seed)

/-! ## Generic facts about the stable sort -/

theorem insertOrd_perm (lt : α → α → Bool) (x : α) (l : List α) :
    List.Perm (insertOrd lt x l) (x :: l) := by
  induction l with
  | nil => exact List.Perm.refl _
  | cons y ys ih =>
    unfold insertOrd
    by_cases h : lt y x = true
    · simp only [h, if_true]
      exact (ih.cons y).trans (List.Perm.swap x y ys)
    · simp only [Bool.not_eq_true] at h
      simp only [h, Bool.false_eq_true, if_false]
      exact List.Perm.refl _

theorem sortOrd_perm (lt : α → α → Bool) (l : List α) : List.Perm (sortOrd lt l) l := by
  induction l with
  | nil => exact List.Perm.refl _
  | cons x xs ih => exact (insertOrd_perm lt x (sortOrd lt xs)).trans (ih.cons x)

theorem insertOrd_pairwise (lt : α → α → Bool)
    (hasym : ∀ a b, lt a b = true → lt b a = false)
    (hntrans : ∀ a b c, lt b a = false → lt c b = false → lt c a = false)
    (x : α) (l : List α) (hl : l.Pairwise fun a b => lt b a = false) :
    (insertOrd lt x l).Pairwise fun a b => lt b a = false := by
  induction l with
  | nil => simp [insertOrd]
  | cons y ys ih =>
    rcases hl with _ | ⟨hy, hys⟩
    unfold insertOrd
    by_cases h : lt y x = true
    · simp only [h, if_true]
      refine List.Pairwise.cons ?_ (ih hys)
      intro z hz
      rcases List.mem_cons.mp ((insertOrd_perm lt x ys).mem_iff.mp hz) with rfl | hz'
      · exact hasym y z h
      · exact hy z hz'
    · simp only [Bool.not_eq_true] at h
      simp only [h, Bool.false_eq_true, if_false]
      refine List.Pairwise.cons ?_ (List.Pairwise.cons hy hys)
      intro z hz
      rcases List.mem_cons.mp hz with rfl | hz'
      · exact h
      · exact hntrans x y z h (hy z hz')

theorem sortOrd_pairwise (lt : α → α → Bool)
    (hasym : ∀ a b, lt a b = true → lt b a = false)
    (hntrans : ∀ a b c, lt b a = false → lt c b = false → lt c a = false) :
    ∀ l : List α, (sortOrd lt l).Pairwise fun a b => lt b a = false
  | [] => List.Pairwise.nil
  | x :: xs =>
    insertOrd_pairwise lt hasym hntrans x (sortOrd lt xs)
      (sortOrd_pairwise lt hasym hntrans xs)

/-! ## Order facts about the comparators -/

theorem better_iff (a b : AABB) :
    better a b = true ↔
      a.y < b.y ∨ (a.y = b.y ∧ (a.z < b.z ∨ (a.z = b.z ∧ a.x < b.x))) := by
  unfold better
  split_ifs with hy hz
  · simp only [decide_eq_true_eq]
    constructor
    · exact fun h => Or.inl h
    · rintro (h | ⟨h1, _⟩)
      · exact h
      · exact absurd h1 hy
  · have ey : a.y = b.y := not_not.mp hy
    simp only [decide_eq_true_eq]
    constructor
    · exact fun h => Or.inr ⟨ey, Or.inl h⟩
    · rintro (h | ⟨_, h | ⟨h1, _⟩⟩)
      · rw [ey] at h; exact absurd h (lt_irrefl _)
      · exact h
      · exact absurd h1 hz
  · have ey : a.y = b.y := not_not.mp hy
    have ez : a.z = b.z := not_not.mp hz
    simp only [decide_eq_true_eq]
    constructor
    · exact fun h => Or.inr ⟨ey, Or.inr ⟨ez, h⟩⟩
    · rintro (h | ⟨_, h | ⟨_, h⟩⟩)
      · rw [ey] at h; exact absurd h (lt_irrefl _)
      · rw [ez] at h; exact absurd h (lt_irrefl _)
      · exact h

theorem better_irrefl (a : AABB) : better a a = false := by
  by_contra h
  have h' : better a a = true := by revert h; cases better a a <;> simp
  rcases (better_iff a a).mp h' with h1 | ⟨_, h1 | ⟨_, h1⟩⟩ <;> exact lt_irrefl _ h1

theorem better_trans {a b c : AABB} (h1 : better a b = true) (h2 : better b c = true) :
    better a c = true := by
  rw [better_iff] at h1 h2 ⊢
  rcases h1 with h1 | ⟨e1, h1 | ⟨f1, g1⟩⟩ <;> rcases h2 with h2 | ⟨e2, h2 | ⟨f2, g2⟩⟩
  all_goals first
    | (left; linarith)
    | (right; constructor; linarith; left; linarith)
    | (right; constructor; linarith; right; constructor; linarith; linarith)

theorem better_of_better_of_not {p b q : AABB} (h1 : better p b = true)
    (h2 : better q b = false) : better p q = true := by
  have h2' : ¬ (q.y < b.y ∨ (q.y = b.y ∧ (q.z < b.z ∨ (q.z = b.z ∧ q.x < b.x)))) := by
    intro hc
    rw [← better_iff] at hc
    rw [hc] at h2
    exact Bool.noConfusion h2
  push_neg at h2'
  rw [better_iff] at h1 ⊢
  obtain ⟨hy, hyz⟩ := h2'
  rcases h1 with h1 | ⟨e1, h1 | ⟨f1, g1⟩⟩
  · left; linarith
  · rcases eq_or_lt_of_le hy with hq | hq
    · obtain ⟨hz1, _⟩ := hyz hq.symm
      right; exact ⟨by linarith, Or.inl (by linarith)⟩
    · left; linarith
  · rcases eq_or_lt_of_le hy with hq | hq
    · obtain ⟨hz1, hz2⟩ := hyz hq.symm
      rcases eq_or_lt_of_le hz1 with hqz | hqz
      · have hx := hz2 hqz.symm
        right; exact ⟨by linarith, Or.inr ⟨by linarith, by linarith⟩⟩
      · right; exact ⟨by linarith, Or.inl (by linarith)⟩
    · left; linarith

/-! ## Pointwise facts about the load bookkeeping -/

/-- The net load added at index `j` by a share list. -/
def deltaOf (l : List (ℕ × ℚ)) (j : ℕ) : ℚ :=
  (l.map fun ia => if ia.1 = j then ia.2 else 0).sum

theorem deltaOf_nil (j : ℕ) : deltaOf [] j = 0 := rfl

theorem deltaOf_cons (ia : ℕ × ℚ) (l : List (ℕ × ℚ)) (j : ℕ) :
    deltaOf (ia :: l) j = (if ia.1 = j then ia.2 else 0) + deltaOf l j := by
  simp [deltaOf]

theorem addLoadAt_length (pl : List PlacedState) (i : ℕ) (a : ℚ) :
    (addLoadAt pl i a).length = pl.length := by
  induction pl generalizing i with
  | nil => rfl
  | cons p ps ih =>
    cases i with
    | zero => rfl
    | succ n => simp [addLoadAt, ih]

theorem addLoadAt_getD (pl : List PlacedState) (i : ℕ) (a : ℚ) (j : ℕ) :
    (addLoadAt pl i a).getD j dummyPlaced =
      (if i = j ∧ j < pl.length then
        { pl.getD j dummyPlaced with
            load_on_top := (pl.getD j dummyPlaced).load_on_top + a }
       else pl.getD j dummyPlaced) := by
  induction pl generalizing i j with
  | nil => simp [addLoadAt]
  | cons p ps ih =>
    cases i with
    | zero =>
      cases j with
      | zero => simp [addLoadAt]
      | succ m => simp [addLoadAt]
    | succ n =>
      cases j with
      | zero => simp [addLoadAt]
      | succ m =>
        simp only [addLoadAt, List.getD_cons_succ, List.length_cons, ih]
        by_cases h : n = m ∧ m < ps.length
        · rw [if_pos h, if_pos ⟨by omega, by omega⟩]
        · rw [if_neg h, if_neg (by omega)]

theorem applyLoads_length (pl : List PlacedState) (l : List (ℕ × ℚ)) :
    (applyLoads pl l).length = pl.length := by
  induction l generalizing pl with
  | nil => rfl
  | cons ia rest ih =>
    show (applyLoads (addLoadAt pl ia.1 ia.2) rest).length = pl.length
    rw [ih, addLoadAt_length]

theorem applyLoads_getD (pl : List PlacedState) (l : List (ℕ × ℚ)) (j : ℕ) :
    (applyLoads pl l).getD j dummyPlaced =
      (if j < pl.length then
        { pl.getD j dummyPlaced with
            load_on_top := (pl.getD j dummyPlaced).load_on_top + deltaOf l j }
       else pl.getD j dummyPlaced) := by
  induction l generalizing pl with
  | nil =>
    show pl.getD j dummyPlaced = _
    rw [deltaOf_nil]
    split_ifs <;> simp
  | cons ia rest ih =>
    show (applyLoads (addLoadAt pl ia.1 ia.2) rest).getD j dummyPlaced = _
    rw [ih, addLoadAt_length, addLoadAt_getD, deltaOf_cons]
    by_cases hj : j < pl.length
    · rw [if_pos hj, if_pos hj]
      by_cases hi : ia.1 = j
      · rw [if_pos ⟨hi, hj⟩, if_pos hi]
        simp only []
        congr 1
        ring
      · rw [if_neg (by tauto), if_neg hi]
        simp only []
        congr 1
        ring
    · rw [if_neg hj, if_neg hj, if_neg (by tauto)]

theorem applyLoads_getD_load (pl : List PlacedState) (l : List (ℕ × ℚ)) (j : ℕ)
    (hj : j < pl.length) :
    ((applyLoads pl l).getD j dummyPlaced).load_on_top =
      (pl.getD j dummyPlaced).load_on_top + deltaOf l j := by
  rw [applyLoads_getD, if_pos hj]

theorem applyLoads_getD_max (pl : List PlacedState) (l : List (ℕ × ℚ)) (j : ℕ) :
    ((applyLoads pl l).getD j dummyPlaced).max_load =
      (pl.getD j dummyPlaced).max_load := by
  rw [applyLoads_getD]
  split_ifs <;> rfl

theorem applyLoads_getD_weight (pl : List PlacedState) (l : List (ℕ × ℚ)) (j : ℕ) :
    ((applyLoads pl l).getD j dummyPlaced).weight =
      (pl.getD j dummyPlaced).weight := by
  rw [applyLoads_getD]
  split_ifs <;> rfl

theorem applyLoads_getD_box (pl : List PlacedState) (l : List (ℕ × ℚ)) (j : ℕ) :
    ((applyLoads pl l).getD j dummyPlaced).box = (pl.getD j dummyPlaced).box := by
  rw [applyLoads_getD]
  split_ifs <;> rfl

theorem applyLoads_getD_id (pl : List PlacedState) (l : List (ℕ × ℚ)) (j : ℕ) :
    ((applyLoads pl l).getD j dummyPlaced).id = (pl.getD j dummyPlaced).id := by
  rw [applyLoads_getD]
  split_ifs <;> rfl

/-- Two placed lists with the same length and the same `getD` views are
equal. -/
theorem placed_ext {pl ql : List PlacedState} (hlen : pl.length = ql.length)
    (h : ∀ j, pl.getD j dummyPlaced = ql.getD j dummyPlaced) : pl = ql := by
  induction pl generalizing ql with
  | nil => cases ql with
    | nil => rfl
    | cons q qs => simp at hlen
  | cons p ps ih =>
    cases ql with
    | nil => simp at hlen
    | cons q qs =>
      have h0 := h 0
      simp only [List.getD_cons_zero] at h0
      have htail : ∀ j, ps.getD j dummyPlaced = qs.getD j dummyPlaced := by
        intro j
        have := h (j + 1)
        simpa using this
      rw [h0, ih (by simpa using hlen) htail]

theorem rollback_applyLoads (pl : List PlacedState) (l : List (ℕ × ℚ)) :
    rollback_loads (applyLoads pl l) l = pl := by
  have hneg : ∀ j, deltaOf (l.map fun ia => (ia.1, -ia.2)) j = -deltaOf l j := by
    intro j
    induction l with
    | nil => simp [deltaOf]
    | cons ia rest ih =>
      simp only [List.map_cons, deltaOf_cons, ih]
      by_cases h : ia.1 = j
      · simp [h]; ring
      · simp [h]
  unfold rollback_loads
  apply placed_ext
  · rw [applyLoads_length, applyLoads_length]
  · intro j
    rw [applyLoads_getD, applyLoads_getD, hneg]
    by_cases hj : j < pl.length
    · rw [if_pos (by rwa [applyLoads_length]), if_pos hj]
      simp only []
      cases hp : pl.getD j dummyPlaced
      simp only []
      congr 1
      ring
    · rw [if_neg (by rwa [applyLoads_length]), if_neg hj]

/-- The rollback of freshly-applied loads on top of an older application
cancels exactly: `rollback (applyLoads (applyLoads base bl) ap) bl =
applyLoads base ap`. -/
theorem rollback_shuffle (base : List PlacedState) (bl ap : List (ℕ × ℚ)) :
    rollback_loads (applyLoads (applyLoads base bl) ap) bl = applyLoads base ap := by
  have hneg : ∀ j, deltaOf (bl.map fun ia => (ia.1, -ia.2)) j = -deltaOf bl j := by
    intro j
    induction bl with
    | nil => simp [deltaOf]
    | cons ia rest ih =>
      simp only [List.map_cons, deltaOf_cons, ih]
      by_cases h : ia.1 = j
      · simp [h]; ring
      · simp [h]
  unfold rollback_loads
  apply placed_ext
  · simp only [applyLoads_length]
  · intro j
    rw [applyLoads_getD, applyLoads_getD, applyLoads_getD, applyLoads_getD, hneg]
    simp only [applyLoads_length]
    by_cases hj : j < base.length
    · rw [if_pos hj, if_pos hj, if_pos hj, if_pos hj]
      simp only []
      congr 1
      ring
    · rw [if_neg hj, if_neg hj, if_neg hj, if_neg hj]

/-! ## Facts about the support set -/

theorem enumL_mem {k : ℕ} {l : List PlacedState} {i : ℕ} {p : PlacedState}
    (h : (i, p) ∈ enumL k l) :
    k ≤ i ∧ i - k < l.length ∧ l.getD (i - k) dummyPlaced = p := by
  induction l generalizing k with
  | nil => simp [enumL] at h
  | cons q qs ih =>
    simp only [enumL, List.mem_cons] at h
    rcases h with h | h
    · simp only [Prod.mk.injEq] at h
      obtain ⟨rfl, rfl⟩ := h
      exact ⟨le_refl _, by simp, by simp⟩
    · obtain ⟨h1, h2, h3⟩ := ih h
      refine ⟨by omega, by simp; omega, ?_⟩
      have : i - k = (i - (k + 1)) + 1 := by omega
      rw [this]
      simpa using h3

theorem supportsFor_mem {cand : AABB} {pl : List PlacedState}
    {t : ℕ × PlacedState × ℚ} (h : t ∈ supportsFor cand pl) :
    t.1 < pl.length ∧ pl.getD t.1 dummyPlaced = t.2.1 := by
  unfold supportsFor at h
  obtain ⟨⟨i, s⟩, hmem, hf⟩ := List.mem_filterMap.mp h
  simp only [] at hf
  split_ifs at hf with h1 h2
  obtain rfl := Option.some.inj hf
  obtain ⟨_, h2, h3⟩ := enumL_mem hmem
  simp only [Nat.sub_zero] at h2 h3
  exact ⟨h2, h3⟩

theorem enumL_map_fst (k : ℕ) (l : List PlacedState) :
    (enumL k l).map (·.1) = List.range' k l.length := by
  induction l generalizing k with
  | nil => rfl
  | cons q qs ih => simp [enumL, List.range'_succ, ih]

theorem supportsFor_fst_sublist (cand : AABB) (pl : List PlacedState) :
    List.Sublist ((supportsFor cand pl).map (·.1)) ((enumL 0 pl).map (·.1)) := by
  unfold supportsFor
  induction enumL 0 pl with
  | nil => simp
  | cons a l ih =>
    simp only [List.filterMap_cons]
    split_ifs with h1 h2
    · exact ih.trans (List.sublist_cons_self _ _)
    · exact ih.trans (List.sublist_cons_self _ _)
    · simp only [List.map_cons]
      exact List.Sublist.cons₂ _ ih

theorem supportsFor_fst_nodup (cand : AABB) (pl : List PlacedState) :
    ((supportsFor cand pl).map (·.1)).Nodup :=
  (supportsFor_fst_sublist cand pl).nodup
    (by rw [enumL_map_fst]; exact List.nodup_range' 0 pl.length)

theorem deltaOf_of_not_mem {l : List (ℕ × ℚ)} {j : ℕ} (h : j ∉ l.map (·.1)) :
    deltaOf l j = 0 := by
  induction l with
  | nil => rfl
  | cons ia rest ih =>
    simp only [List.map_cons, List.mem_cons] at h
    push_neg at h
    rw [deltaOf_cons, if_neg (fun hc => h.1 hc.symm), ih h.2, add_zero]

theorem deltaOf_of_nodup {l : List (ℕ × ℚ)} {j : ℕ} {v : ℚ}
    (hnd : (l.map (·.1)).Nodup) (h : (j, v) ∈ l) : deltaOf l j = v := by
  induction l with
  | nil => simp at h
  | cons ia rest ih =>
    simp only [List.map_cons, List.nodup_cons] at hnd
    rcases List.mem_cons.mp h with rfl | h'
    · rw [deltaOf_cons, if_pos rfl, deltaOf_of_not_mem (by simpa using hnd.1), add_zero]
    · have hne : ia.1 ≠ j := by
        intro hc
        exact hnd.1 (hc ▸ (List.mem_map.mpr ⟨(j, v), h', rfl⟩))
      rw [deltaOf_cons, if_neg hne, ih hnd.2 h', zero_add]

/-! ## The kernel's success shape and the load-bound invariant -/

theorem foldl_inv {β σ : Type _} {f : σ → β → σ} {P : σ → Prop}
    (h : ∀ s b, P s → P (f s b)) : ∀ (l : List β) (s : σ), P s → P (l.foldl f s) := by
  intro l
  induction l with
  | nil => exact fun s hs => hs
  | cons b bs ih => exact fun s hs => ih (f s b) (h s b hs)

theorem applyLoads_nil (pl : List PlacedState) : applyLoads pl [] = pl := rfl

/-- Success of the kernel: either the floor case (no supports touched) or
the commit case (the shares applied, the crush pre-check clean). -/
theorem support_ok_some {cand : AABB} {w : ℚ} {pl pl' : List PlacedState}
    {ap : List (ℕ × ℚ)}
    (h : support_ok_and_apply_load cand w pl = some (pl', ap)) :
    pl' = applyLoads pl ap ∧
      (ap = [] ∨ (ap = sharesFor cand w pl ∧ crushFail cand w pl = false)) := by
  unfold support_ok_and_apply_load at h
  split_ifs at h with h1 h2 h3 h4
  · obtain ⟨hp, ha⟩ := Prod.mk.injEq .. ▸ Option.some.inj h
    subst ha
    exact ⟨hp.symm ▸ (applyLoads_nil pl).symm, Or.inl rfl⟩
  · obtain ⟨hp, ha⟩ := Prod.mk.injEq .. ▸ Option.some.inj h
    subst ha
    exact ⟨hp.symm, Or.inr ⟨rfl, by simpa using h4⟩⟩

theorem shareOf_nonneg {w A a : ℚ} (hw : 0 ≤ w) : 0 ≤ shareOf w A a := by
  unfold shareOf
  have h1 : (0 : ℚ) ≤ min 1 (max 0 (a / A)) :=
    le_min zero_le_one (le_max_left 0 _)
  exact mul_nonneg hw h1

theorem sharesFor_nonneg {cand : AABB} {w : ℚ} {pl : List PlacedState}
    (hw : 0 ≤ w) : ∀ ia ∈ sharesFor cand w pl, 0 ≤ ia.2 := by
  intro ia hia
  obtain ⟨t, _, rfl⟩ := List.mem_map.mp hia
  exact shareOf_nonneg hw

theorem deltaOf_nonneg {l : List (ℕ × ℚ)} (h : ∀ ia ∈ l, 0 ≤ ia.2) (j : ℕ) :
    0 ≤ deltaOf l j := by
  induction l with
  | nil => simp [deltaOf]
  | cons ia rest ih =>
    rw [deltaOf_cons]
    have h1 : 0 ≤ (if ia.1 = j then ia.2 else 0) := by
      split_ifs
      · exact h ia (List.mem_cons_self ia rest)
      · exact le_refl 0
    have h2 := ih fun x hx => h x (List.mem_cons_of_mem ia hx)
    linarith

/-- The per-entry crush bound: every placed entry's accumulated load stays
within `max_load + 1e-9`. -/
def InvLoad (pl : List PlacedState) : Prop :=
  ∀ j, j < pl.length →
    (pl.getD j dummyPlaced).load_on_top ≤ (pl.getD j dummyPlaced).max_load + eps9

theorem support_ok_some_nonneg {cand : AABB} {w : ℚ} {pl pl' : List PlacedState}
    {ap : List (ℕ × ℚ)}
    (h : support_ok_and_apply_load cand w pl = some (pl', ap)) (hw : 0 ≤ w) :
    ∀ ia ∈ ap, 0 ≤ ia.2 := by
  rcases (support_ok_some h).2 with rfl | ⟨rfl, _⟩
  · intro ia hia; simp at hia
  · exact sharesFor_nonneg hw

theorem sharesFor_fst_nodup (cand : AABB) (w : ℚ) (pl : List PlacedState) :
    ((sharesFor cand w pl).map (·.1)).Nodup := by
  unfold sharesFor
  rw [List.map_map]
  exact supportsFor_fst_nodup cand pl

theorem support_ok_some_invLoad {cand : AABB} {w : ℚ} {pl pl' : List PlacedState}
    {ap : List (ℕ × ℚ)}
    (h : support_ok_and_apply_load cand w pl = some (pl', ap))
    (hinv : InvLoad pl) : InvLoad pl' := by
  obtain ⟨rfl, hcase⟩ := support_ok_some h
  rcases hcase with rfl | ⟨rfl, hcrush⟩
  · rwa [applyLoads_nil]
  · intro j hj
    rw [applyLoads_length] at hj
    rw [applyLoads_getD_load _ _ _ hj, applyLoads_getD_max]
    by_cases hmem : j ∈ (sharesFor cand w pl).map (·.1)
    · obtain ⟨ia, hia, hfst⟩ := List.mem_map.mp hmem
      obtain ⟨t, ht, rfl⟩ := List.mem_map.mp hia
      simp only [] at hfst
      have hδ : deltaOf (sharesFor cand w pl) j =
          shareOf w (baseAreaOf cand) t.2.2 := by
        apply deltaOf_of_nodup (sharesFor_fst_nodup cand w pl)
        rw [← hfst]
        exact List.mem_map.mpr ⟨t, ht, rfl⟩
      have hok : ¬ (t.2.1.load_on_top + shareOf w (baseAreaOf cand) t.2.2 >
          t.2.1.max_load + eps9) := by
        intro hc
        have := List.any_eq_false.mp (by exact hcrush) t ht
        simp only [decide_eq_true_eq] at this
        exact this hc
      obtain ⟨hlt, hget⟩ := supportsFor_mem ht
      rw [hδ, ← hfst, hget]
      push_neg at hok
      linarith
    · rw [deltaOf_of_not_mem hmem]
      have := hinv j hj
      linarith

/-- The committed loads of the current best, `[]` when none. -/
def bestLoads (s : SweepState) : List (ℕ × ℚ) :=
  match s.best with
  | none => []
  | some (_, l) => l

/-- The sweep's load bookkeeping: the working placed list is exactly the
base list plus the current best's committed shares, the shares are
non-negative, and the crush bound holds throughout. -/
def SweepInvLoad (base : List PlacedState) (s : SweepState) : Prop :=
  s.placed = applyLoads base (bestLoads s) ∧
  (∀ ia ∈ bestLoads s, 0 ≤ ia.2) ∧ InvLoad s.placed

theorem sweepStep_invLoad {t : Truck} {w : ℚ} {base : List PlacedState}
    {s : SweepState} {p : AABB} (hw : 0 ≤ w)
    (hs : SweepInvLoad base s) : SweepInvLoad base (sweepStep t w s p) := by
  obtain ⟨hplaced, hnn, hinv⟩ := hs
  unfold sweepStep
  split_ifs with h1 h2
  · exact ⟨hplaced, hnn, hinv⟩
  · exact ⟨hplaced, hnn, hinv⟩
  · rcases hk : support_ok_and_apply_load p w s.placed with _ | ⟨pl', ap⟩
    · exact ⟨hplaced, hnn, hinv⟩
    · have hap_nn := support_ok_some_nonneg hk hw
      have hinv' := support_ok_some_invLoad hk hinv
      obtain ⟨hpl', _⟩ := support_ok_some hk
      rcases hb : s.best with _ | ⟨b, bl⟩
      · simp only [hb]
        have hbl : bestLoads s = [] := by unfold bestLoads; rw [hb]
        rw [hbl, applyLoads_nil] at hplaced
        refine ⟨?_, ?_, hinv'⟩
        · show pl' = applyLoads base ap
          rw [hpl', hplaced]
        · show ∀ ia ∈ ap, 0 ≤ ia.2
          exact hap_nn
      · simp only [hb]
        have hbl : bestLoads s = bl := by unfold bestLoads; rw [hb]
        rw [hbl] at hplaced hnn
        by_cases hbet : better p b = true
        · simp only [hbet, if_true]
          refine ⟨?_, hap_nn, ?_⟩
          · show rollback_loads pl' bl = applyLoads base ap
            rw [hpl', hplaced, rollback_shuffle]
          · show InvLoad (rollback_loads pl' bl)
            intro j hj
            rw [hpl', hplaced, rollback_shuffle] at hj ⊢
            rw [applyLoads_length] at hj
            have hj' : j < (applyLoads (applyLoads base bl) ap).length := by
              simp only [applyLoads_length]
              exact hj
            have hb1 := hinv' j (by rw [hpl', hplaced]; exact hj')
            rw [hpl', hplaced] at hb1
            rw [applyLoads_getD_load _ _ _ (by simpa only [applyLoads_length] using hj),
              applyLoads_getD_max, applyLoads_getD_load _ _ _ hj,
              applyLoads_getD_max] at hb1
            rw [applyLoads_getD_load _ _ _ hj, applyLoads_getD_max]
            have hδ := deltaOf_nonneg hnn j
            linarith
        · simp only [hbet]
          have hroll : rollback_loads pl' ap = s.placed := by
            rw [hpl', rollback_applyLoads]
          simp only [Bool.false_eq_true, if_false]
          refine ⟨?_, ?_, ?_⟩
          · show rollback_loads pl' ap = applyLoads base (bestLoads ⟨_, some (b, bl), _⟩)
            rw [hroll, hplaced]
            rfl
          · show ∀ ia ∈ bestLoads ⟨_, some (b, bl), _⟩, 0 ≤ ia.2
            exact hnn
          · show InvLoad (rollback_loads pl' ap)
            rw [hroll]
            exact hinv

theorem sweep_invLoad (t : Truck) (w : ℚ) (base : List PlacedState)
    (pairs : List AABB) (hw : 0 ≤ w) (hbase : InvLoad base) :
    SweepInvLoad base (sweep t w base pairs) := by
  unfold sweep
  refine foldl_inv (fun s p hs => sweepStep_invLoad hw hs) pairs _ ?_
  exact ⟨(applyLoads_nil base).symm, by intro ia h; simp [bestLoads] at h, hbase⟩

/-! ## Sweep frame facts: weights and boxes are never touched -/

/-- Total weight of the placed states. -/
def sumW (pl : List PlacedState) : ℚ := (pl.map (·.weight)).sum

theorem sumW_nil : sumW [] = 0 := rfl

theorem sumW_cons (p : PlacedState) (ps : List PlacedState) :
    sumW (p :: ps) = p.weight + sumW ps := by simp [sumW]

theorem sumW_append_singleton (pl : List PlacedState) (p : PlacedState) :
    sumW (pl ++ [p]) = sumW pl + p.weight := by simp [sumW]

theorem sumW_addLoadAt (pl : List PlacedState) (i : ℕ) (a : ℚ) :
    sumW (addLoadAt pl i a) = sumW pl := by
  induction pl generalizing i with
  | nil => rfl
  | cons p ps ih =>
    cases i with
    | zero => simp [addLoadAt, sumW_cons]
    | succ n => simp [addLoadAt, sumW_cons, ih]

theorem sumW_applyLoads (pl : List PlacedState) (l : List (ℕ × ℚ)) :
    sumW (applyLoads pl l) = sumW pl := by
  induction l generalizing pl with
  | nil => rfl
  | cons ia rest ih =>
    show sumW (applyLoads (addLoadAt pl ia.1 ia.2) rest) = sumW pl
    rw [ih, sumW_addLoadAt]

/-! ### Case equations for `sweepStep` -/

theorem sweepStep_not_inside {t : Truck} {w : ℚ} {s : SweepState} {p : AABB}
    (h : inside_truck t p = false) : sweepStep t w s p = s := by
  simp [sweepStep, h]

theorem sweepStep_collides {t : Truck} {w : ℚ} {s : SweepState} {p : AABB}
    (h1 : inside_truck t p = true) (h2 : collides_any s.placed p = true) :
    sweepStep t w s p = s := by
  simp [sweepStep, h1, h2]

theorem sweepStep_kern_none {t : Truck} {w : ℚ} {s : SweepState} {p : AABB}
    (h1 : inside_truck t p = true) (h2 : collides_any s.placed p = false)
    (hk : support_ok_and_apply_load p w s.placed = none) : sweepStep t w s p = s := by
  simp [sweepStep, h1, h2, hk]

theorem sweepStep_pass_first {t : Truck} {w : ℚ} {s : SweepState} {p : AABB}
    {pl' : List PlacedState} {ap : List (ℕ × ℚ)}
    (h1 : inside_truck t p = true) (h2 : collides_any s.placed p = false)
    (hk : support_ok_and_apply_load p w s.placed = some (pl', ap))
    (hb : s.best = none) :
    sweepStep t w s p = ⟨pl', some (p, ap), s.passed ++ [p]⟩ := by
  simp [sweepStep, h1, h2, hk, hb]

theorem sweepStep_pass_better {t : Truck} {w : ℚ} {s : SweepState} {p : AABB}
    {pl' : List PlacedState} {ap : List (ℕ × ℚ)} {b : AABB} {bl : List (ℕ × ℚ)}
    (h1 : inside_truck t p = true) (h2 : collides_any s.placed p = false)
    (hk : support_ok_and_apply_load p w s.placed = some (pl', ap))
    (hb : s.best = some (b, bl)) (hbet : better p b = true) :
    sweepStep t w s p = ⟨rollback_loads pl' bl, some (p, ap), s.passed ++ [p]⟩ := by
  simp [sweepStep, h1, h2, hk, hb, hbet]

theorem sweepStep_pass_keep {t : Truck} {w : ℚ} {s : SweepState} {p : AABB}
    {pl' : List PlacedState} {ap : List (ℕ × ℚ)} {b : AABB} {bl : List (ℕ × ℚ)}
    (h1 : inside_truck t p = true) (h2 : collides_any s.placed p = false)
    (hk : support_ok_and_apply_load p w s.placed = some (pl', ap))
    (hb : s.best = some (b, bl)) (hbet : better p b = false) :
    sweepStep t w s p = ⟨rollback_loads pl' ap, some (b, bl), s.passed ++ [p]⟩ := by
  simp [sweepStep, h1, h2, hk, hb, hbet]

/-- Every proof below runs through the same exhaustive case split. -/
theorem sweepStep_elim (t : Truck) (w : ℚ) (s : SweepState) (p : AABB)
    {motive : Prop}
    (hid : sweepStep t w s p = s → motive)
    (hfirst : ∀ pl' ap, inside_truck t p = true → collides_any s.placed p = false →
      support_ok_and_apply_load p w s.placed = some (pl', ap) → s.best = none →
      sweepStep t w s p = ⟨pl', some (p, ap), s.passed ++ [p]⟩ → motive)
    (hbetter : ∀ pl' ap b bl, inside_truck t p = true → collides_any s.placed p = false →
      support_ok_and_apply_load p w s.placed = some (pl', ap) → s.best = some (b, bl) →
      better p b = true →
      sweepStep t w s p = ⟨rollback_loads pl' bl, some (p, ap), s.passed ++ [p]⟩ → motive)
    (hkeep : ∀ pl' ap b bl, inside_truck t p = true → collides_any s.placed p = false →
      support_ok_and_apply_load p w s.placed = some (pl', ap) → s.best = some (b, bl) →
      better p b = false →
      sweepStep t w s p = ⟨rollback_loads pl' ap, some (b, bl), s.passed ++ [p]⟩ → motive) :
    motive := by
  rcases hins : inside_truck t p with _ | _
  · exact hid (sweepStep_not_inside hins)
  · rcases hcol : collides_any s.placed p with _ | _
    · rcases hk : support_ok_and_apply_load p w s.placed with _ | ⟨pl', ap⟩
      · exact hid (sweepStep_kern_none hins hcol hk)
      · rcases hb : s.best with _ | ⟨b, bl⟩
        · exact hfirst pl' ap hins hcol hk hb (sweepStep_pass_first hins hcol hk hb)
        · rcases hbet : better p b with _ | _
          · exact hkeep pl' ap b bl hins hcol hk hb hbet
              (sweepStep_pass_keep hins hcol hk hb hbet)
          · exact hbetter pl' ap b bl hins hcol hk hb hbet
              (sweepStep_pass_better hins hcol hk hb hbet)
    · exact hid (sweepStep_collides hins hcol)

theorem sweepStep_sumW (t : Truck) (w : ℚ) (s : SweepState) (p : AABB) :
    sumW (sweepStep t w s p).placed = sumW s.placed := by
  refine sweepStep_elim t w s p (fun he => by rw [he]) ?_ ?_ ?_
  · intro pl' ap _ _ hk _ he
    obtain ⟨rfl, _⟩ := support_ok_some hk
    rw [he]
    exact sumW_applyLoads _ _
  · intro pl' ap b bl _ _ hk _ _ he
    obtain ⟨rfl, _⟩ := support_ok_some hk
    rw [he]
    show sumW (rollback_loads _ _) = _
    unfold rollback_loads
    rw [sumW_applyLoads, sumW_applyLoads]
  · intro pl' ap b bl _ _ hk _ _ he
    obtain ⟨rfl, _⟩ := support_ok_some hk
    rw [he]
    show sumW (rollback_loads _ _) = _
    unfold rollback_loads
    rw [sumW_applyLoads, sumW_applyLoads]

theorem sweep_sumW (t : Truck) (w : ℚ) (base : List PlacedState) (pairs : List AABB) :
    sumW (sweep t w base pairs).placed = sumW base := by
  unfold sweep
  exact foldl_inv (P := fun s : SweepState => sumW s.placed = sumW base)
    (fun s p hs => (sweepStep_sumW t w s p).trans hs) pairs _ rfl

theorem boxes_addLoadAt (pl : List PlacedState) (i : ℕ) (a : ℚ) :
    (addLoadAt pl i a).map (·.box) = pl.map (·.box) := by
  induction pl generalizing i with
  | nil => rfl
  | cons p ps ih =>
    cases i with
    | zero => simp [addLoadAt]
    | succ n => simp [addLoadAt, ih]

theorem boxes_applyLoads (pl : List PlacedState) (l : List (ℕ × ℚ)) :
    (applyLoads pl l).map (·.box) = pl.map (·.box) := by
  induction l generalizing pl with
  | nil => rfl
  | cons ia rest ih =>
    show (applyLoads (addLoadAt pl ia.1 ia.2) rest).map (·.box) = pl.map (·.box)
    rw [ih, boxes_addLoadAt]

/-- `collides_any` reads only the boxes. -/
theorem collides_any_eq_map (pl : List PlacedState) (a : AABB) :
    collides_any pl a = (pl.map (·.box)).any (fun bx => intersects a bx) := by
  induction pl with
  | nil => rfl
  | cons q qs ih =>
    simp only [collides_any, List.any_cons, List.map_cons] at ih ⊢
    rw [ih]

theorem sweepStep_boxes (t : Truck) (w : ℚ) (s : SweepState) (p : AABB) :
    (sweepStep t w s p).placed.map (·.box) = s.placed.map (·.box) := by
  refine sweepStep_elim t w s p (fun he => by rw [he]) ?_ ?_ ?_
  · intro pl' ap _ _ hk _ he
    obtain ⟨rfl, _⟩ := support_ok_some hk
    rw [he]
    exact boxes_applyLoads _ _
  · intro pl' ap b bl _ _ hk _ _ he
    obtain ⟨rfl, _⟩ := support_ok_some hk
    rw [he]
    show (rollback_loads _ _).map (·.box) = _
    unfold rollback_loads
    rw [boxes_applyLoads, boxes_applyLoads]
  · intro pl' ap b bl _ _ hk _ _ he
    obtain ⟨rfl, _⟩ := support_ok_some hk
    rw [he]
    show (rollback_loads _ _).map (·.box) = _
    unfold rollback_loads
    rw [boxes_applyLoads, boxes_applyLoads]

theorem sweep_boxes (t : Truck) (w : ℚ) (base : List PlacedState) (pairs : List AABB) :
    (sweep t w base pairs).placed.map (·.box) = base.map (·.box) := by
  unfold sweep
  exact foldl_inv (P := fun s : SweepState => s.placed.map (·.box) = base.map (·.box))
    (fun s p hs => (sweepStep_boxes t w s p).trans hs) pairs _ rfl

/-- The accepted best passed the containment and collision tests against
the base placed list. -/
def SweepInvColl (t : Truck) (base : List PlacedState) (s : SweepState) : Prop :=
  s.placed.map (·.box) = base.map (·.box) ∧
  ∀ b bl, s.best = some (b, bl) →
    collides_any base b = false ∧ inside_truck t b = true

theorem sweepStep_invColl {t : Truck} {w : ℚ} {base : List PlacedState}
    {s : SweepState} {p : AABB} (hs : SweepInvColl t base s) :
    SweepInvColl t base (sweepStep t w s p) := by
  obtain ⟨hbx, hbest⟩ := hs
  have hbx' : (sweepStep t w s p).placed.map (·.box) = base.map (·.box) := by
    rw [sweepStep_boxes]; exact hbx
  refine ⟨hbx', ?_⟩
  have hcoll_of : collides_any s.placed p = false → collides_any base p = false := by
    intro h2
    rw [collides_any_eq_map] at h2 ⊢
    rwa [hbx] at h2
  refine sweepStep_elim t w s p
    (motive := ∀ b bl, (sweepStep t w s p).best = some (b, bl) →
      collides_any base b = false ∧ inside_truck t b = true) ?_ ?_ ?_ ?_
  · intro he b bl hb
    rw [he] at hb
    exact hbest b bl hb
  · intro pl' ap hins hcol hk hsb he b bl hb
    rw [he] at hb
    simp only [SweepState.best] at hb
    obtain ⟨rfl, rfl⟩ := Prod.mk.injEq .. ▸ Option.some.inj hb
    exact ⟨hcoll_of hcol, hins⟩
  · intro pl' ap b0 bl0 hins hcol hk hsb hbet he b bl hb
    rw [he] at hb
    simp only [SweepState.best] at hb
    obtain ⟨rfl, rfl⟩ := Prod.mk.injEq .. ▸ Option.some.inj hb
    exact ⟨hcoll_of hcol, hins⟩
  · intro pl' ap b0 bl0 hins hcol hk hsb hbet he b bl hb
    rw [he] at hb
    simp only [SweepState.best] at hb
    obtain ⟨rfl, rfl⟩ := Prod.mk.injEq .. ▸ Option.some.inj hb
    exact hbest _ _ hsb

theorem sweep_invColl (t : Truck) (w : ℚ) (base : List PlacedState)
    (pairs : List AABB) : SweepInvColl t base (sweep t w base pairs) := by
  unfold sweep
  refine foldl_inv (fun s p hs => sweepStep_invColl hs) pairs _ ?_
  exact ⟨rfl, fun b bl hb => by simp at hb⟩

theorem intersects_symm (a b : AABB) : intersects a b = intersects b a := by
  simp only [intersects]
  rw [Bool.or_comm (decide (a.x + a.w ≤ b.x)), Bool.or_comm (decide (a.y + a.h ≤ b.y)),
    Bool.or_comm (decide (a.z + a.d ≤ b.z))]

/-! ## Case equations for `packStep` -/

theorem packStep_heavy {t : Truck} {boxes : List Box} {st : PackState} {idx : ℕ}
    (h : (boxes.getD idx dummyBox).weight > st.remaining + eps9) :
    packStep t boxes st idx =
      { st with unplaced := st.unplaced ++ [(boxes.getD idx dummyBox).id] } := by
  unfold packStep
  rw [if_pos h]

theorem packStep_none {t : Truck} {boxes : List Box} {st : PackState} {idx : ℕ}
    (h : ¬ (boxes.getD idx dummyBox).weight > st.remaining + eps9)
    (hsw : (sweep t (boxes.getD idx dummyBox).weight st.placed
      (pairsFor (unique_candidates st.candidates)
        (rotsOf (boxes.getD idx dummyBox)))).best = none) :
    packStep t boxes st idx =
      { st with
          candidates := unique_candidates st.candidates
          unplaced := st.unplaced ++ [(boxes.getD idx dummyBox).id] } := by
  unfold packStep
  rw [if_neg h]
  simp only [hsw]

theorem packStep_accept {t : Truck} {boxes : List Box} {st : PackState} {idx : ℕ}
    {b : AABB} {bl : List (ℕ × ℚ)}
    (h : ¬ (boxes.getD idx dummyBox).weight > st.remaining + eps9)
    (hsw : (sweep t (boxes.getD idx dummyBox).weight st.placed
      (pairsFor (unique_candidates st.candidates)
        (rotsOf (boxes.getD idx dummyBox)))).best = some (b, bl)) :
    packStep t boxes st idx =
      { placed := (sweep t (boxes.getD idx dummyBox).weight st.placed
            (pairsFor (unique_candidates st.candidates)
              (rotsOf (boxes.getD idx dummyBox)))).placed ++
          [⟨b, (boxes.getD idx dummyBox).id, (boxes.getD idx dummyBox).weight,
            max_load_for (boxes.getD idx dummyBox).weight (b.w * b.d), 0⟩],
        candidates := add_candidate (add_candidate (add_candidate
          (unique_candidates st.candidates) (b.x + b.w) b.y b.z) b.x b.y (b.z + b.d))
          b.x (b.y + b.h) b.z,
        remaining := st.remaining - (boxes.getD idx dummyBox).weight,
        placedOut := st.placedOut ++
          [⟨(boxes.getD idx dummyBox).id, b.x, b.y, b.z, b.w, b.h, b.d⟩],
        unplaced := st.unplaced,
        used_volume := st.used_volume + volume b.w b.h b.d,
        total_weight := st.total_weight + (boxes.getD idx dummyBox).weight } := by
  unfold packStep
  rw [if_neg h]
  simp only [hsw]

theorem packStep_elim (t : Truck) (boxes : List Box) (st : PackState) (idx : ℕ)
    {motive : Prop}
    (hheavy : (boxes.getD idx dummyBox).weight > st.remaining + eps9 → motive)
    (hnone : ¬ (boxes.getD idx dummyBox).weight > st.remaining + eps9 →
      (sweep t (boxes.getD idx dummyBox).weight st.placed
        (pairsFor (unique_candidates st.candidates)
          (rotsOf (boxes.getD idx dummyBox)))).best = none → motive)
    (haccept : ∀ b bl, ¬ (boxes.getD idx dummyBox).weight > st.remaining + eps9 →
      (sweep t (boxes.getD idx dummyBox).weight st.placed
        (pairsFor (unique_candidates st.candidates)
          (rotsOf (boxes.getD idx dummyBox)))).best = some (b, bl) → motive) :
    motive := by
  by_cases h : (boxes.getD idx dummyBox).weight > st.remaining + eps9
  · exact hheavy h
  · rcases hsw : (sweep t (boxes.getD idx dummyBox).weight st.placed
      (pairsFor (unique_candidates st.candidates)
        (rotsOf (boxes.getD idx dummyBox)))).best with _ | ⟨b, bl⟩
    · exact hnone h hsw
    · exact haccept b bl h hsw

/-! ## C1: the weight cap -/

/-- The weight-budget invariant of `pack_by_order`'s loop. -/
def PackInvW (t : Truck) (st : PackState) : Prop :=
  st.remaining = t.max_weight - sumW st.placed ∧
  sumW st.placed ≤ t.max_weight + eps9 ∧
  st.total_weight = sumW st.placed

theorem packStep_invW {t : Truck} {boxes : List Box} {st : PackState} {idx : ℕ}
    (hs : PackInvW t st) : PackInvW t (packStep t boxes st idx) := by
  obtain ⟨hrem, hbound, htw⟩ := hs
  refine packStep_elim t boxes st idx ?_ ?_ ?_
  · intro h
    rw [packStep_heavy h]
    exact ⟨hrem, hbound, htw⟩
  · intro h hsw
    rw [packStep_none h hsw]
    exact ⟨hrem, hbound, htw⟩
  · intro b bl h hsw
    rw [packStep_accept h hsw]
    have hsum := sweep_sumW t (boxes.getD idx dummyBox).weight st.placed
      (pairsFor (unique_candidates st.candidates) (rotsOf (boxes.getD idx dummyBox)))
    push_neg at h
    constructor
    · show st.remaining - _ = t.max_weight - sumW (_ ++ [_])
      rw [sumW_append_singleton, hsum]
      simp only []
      linarith
    constructor
    · show sumW (_ ++ [_]) ≤ t.max_weight + eps9
      rw [sumW_append_singleton, hsum]
      simp only []
      linarith
    · show st.total_weight + _ = sumW (_ ++ [_])
      rw [sumW_append_singleton, hsum, htw]

theorem packFinal_invW (t : Truck) (boxes : List Box) (order : List ℕ)
    (hmax : 0 ≤ t.max_weight + eps9) : PackInvW t (packFinal t boxes order) := by
  unfold packFinal
  refine foldl_inv (P := PackInvW t) (fun st idx hs => packStep_invW hs) order _ ?_
  refine ⟨?_, ?_, rfl⟩
  · show t.max_weight = t.max_weight - sumW []
    rw [sumW_nil, sub_zero]
  · show sumW [] ≤ t.max_weight + eps9
    rw [sumW_nil]
    exact hmax

/-- C1: for every truck with positive extents and positive `max_weight`,
every box list with positive extents and non-negative weights, and every
permutation `order` of the box indices, the sum of the weights of the
boxes placed by `pack_by_order` is at most `truck.max_weight + 1e-9` (and
`Result.total_weight` is that sum); a box whose weight exceeds the
remaining budget by more than `1e-9` is recorded as unplaced with no
placement attempt and no other state change. -/
theorem claim1_weight_cap (t : Truck) (boxes : List Box) (order : List ℕ)
    (ht : 0 < t.w ∧ 0 < t.h ∧ 0 < t.d ∧ 0 < t.max_weight)
    (hb : ∀ b ∈ boxes, 0 < b.w ∧ 0 < b.h ∧ 0 < b.d ∧ 0 ≤ b.weight)
    (hord : List.Perm order (List.range boxes.length)) :
    sumW (packFinal t boxes order).placed ≤ t.max_weight + eps9 ∧
    (pack_by_order t boxes order).total_weight = sumW (packFinal t boxes order).placed ∧
    ∀ (st : PackState) (idx : ℕ),
      (boxes.getD idx dummyBox).weight > st.remaining + eps9 →
      packStep t boxes st idx =
        { st with unplaced := st.unplaced ++ [(boxes.getD idx dummyBox).id] } := by
  have h9 : (0 : ℚ) ≤ eps9 := by norm_num [eps9]
  have hmax : 0 ≤ t.max_weight + eps9 := by linarith [ht.2.2.2]
  obtain ⟨h1, h2, h3⟩ := packFinal_invW t boxes order hmax
  exact ⟨h2, h3, fun st idx h => packStep_heavy h⟩

theorem claim1_weight_cap_witness :
    sumW (packFinal ⟨1, 1, 1, 10⟩ [⟨"A", 1, 1, 1, 2, 1⟩] [0]).placed ≤ 10 + eps9 :=
  (claim1_weight_cap ⟨1, 1, 1, 10⟩ [⟨"A", 1, 1, 1, 2, 1⟩] [0]
    (by norm_num) (by norm_num) (by decide)).1

/-! ## C3: pairwise empty interior intersection -/

/-- The AABB of an output `Placement`. -/
def pAABB (p : Placement) : AABB := ⟨p.x, p.y, p.z, p.w, p.h, p.d⟩

/-- The non-overlap invariant: the placed boxes are pairwise
non-intersecting and the output placements mirror the placed boxes. -/
def PackInvNI (st : PackState) : Prop :=
  (st.placed.map (·.box)).Pairwise (fun a b => intersects a b = false) ∧
  st.placedOut.map pAABB = st.placed.map (·.box)

theorem packStep_invNI {t : Truck} {boxes : List Box} {st : PackState} {idx : ℕ}
    (hs : PackInvNI st) : PackInvNI (packStep t boxes st idx) := by
  obtain ⟨hpw, hmirror⟩ := hs
  refine packStep_elim t boxes st idx ?_ ?_ ?_
  · intro h
    rw [packStep_heavy h]
    exact ⟨hpw, hmirror⟩
  · intro h hsw
    rw [packStep_none h hsw]
    exact ⟨hpw, hmirror⟩
  · intro b bl h hsw
    rw [packStep_accept h hsw]
    obtain ⟨hbx, hbest⟩ := sweep_invColl t (boxes.getD idx dummyBox).weight st.placed
      (pairsFor (unique_candidates st.candidates) (rotsOf (boxes.getD idx dummyBox)))
    obtain ⟨hcoll, _⟩ := hbest b bl hsw
    have hall : ∀ a ∈ st.placed.map (·.box), intersects a b = false := by
      intro a ha
      obtain ⟨p, hp, rfl⟩ := List.mem_map.mp ha
      have h1 := List.any_eq_false.mp hcoll p hp
      rw [intersects_symm]
      revert h1
      cases intersects b p.box <;> simp
    unfold PackInvNI
    dsimp only
    constructor
    · rw [List.map_append, hbx, List.pairwise_append]
      refine ⟨hpw, List.pairwise_singleton _ _, ?_⟩
      intro a ha b' hb'
      simp only [List.map_cons, List.map_nil, List.mem_singleton] at hb'
      subst hb'
      exact hall a ha
    · rw [List.map_append, List.map_append, hmirror, hbx]
      rfl

theorem packFinal_invNI (t : Truck) (boxes : List Box) (order : List ℕ) :
    PackInvNI (packFinal t boxes order) := by
  unfold packFinal
  refine foldl_inv (P := PackInvNI) (fun st idx hs => packStep_invNI hs) order _ ?_
  exact ⟨List.Pairwise.nil, rfl⟩

/-- C3: any two distinct AABBs placed by `pack_by_order` on a valid input
and permutation have empty interior intersection — pairwise, the embedded
`intersects` test is false — and `intersects a b = false` holds exactly
when on some axis one box's high face is at or below the other's low face
(touching faces count as non-intersecting). -/
theorem claim3_no_overlap (t : Truck) (boxes : List Box) (order : List ℕ)
    (ht : 0 < t.w ∧ 0 < t.h ∧ 0 < t.d ∧ 0 < t.max_weight)
    (hb : ∀ b ∈ boxes, 0 < b.w ∧ 0 < b.h ∧ 0 < b.d ∧ 0 ≤ b.weight)
    (hord : List.Perm order (List.range boxes.length)) :
    (pack_by_order t boxes order).placed.Pairwise
      (fun p q => intersects (pAABB p) (pAABB q) = false) ∧
    ∀ a b : AABB, intersects a b = false ↔
      ((a.x + a.w ≤ b.x ∨ b.x + b.w ≤ a.x) ∨
       (a.y + a.h ≤ b.y ∨ b.y + b.h ≤ a.y) ∨
       (a.z + a.d ≤ b.z ∨ b.z + b.d ≤ a.z)) := by
  constructor
  · obtain ⟨hpw, hmirror⟩ := packFinal_invNI t boxes order
    have : ((packFinal t boxes order).placedOut.map pAABB).Pairwise
        (fun a b => intersects a b = false) := by
      rw [hmirror]
      exact hpw
    exact List.pairwise_map.mp this
  · intro a b
    simp only [intersects]
    cases h1 : decide (a.x + a.w ≤ b.x) <;> cases h2 : decide (b.x + b.w ≤ a.x) <;>
      cases h3 : decide (a.y + a.h ≤ b.y) <;> cases h4 : decide (b.y + b.h ≤ a.y) <;>
      cases h5 : decide (a.z + a.d ≤ b.z) <;> cases h6 : decide (b.z + b.d ≤ a.z) <;>
      simp_all

theorem claim3_no_overlap_witness :
    (pack_by_order ⟨1, 1, 1, 10⟩ [⟨"A", 1, 1, 1, 2, 1⟩] [0]).placed.Pairwise
      (fun p q => intersects (pAABB p) (pAABB q) = false) :=
  (claim3_no_overlap ⟨1, 1, 1, 10⟩ [⟨"A", 1, 1, 1, 2, 1⟩] [0]
    (by norm_num) (by norm_num) (by decide)).1

/-! ## C2: the crush bound -/

theorem getD_box_weight_nonneg (boxes : List Box) (idx : ℕ)
    (hw : ∀ b ∈ boxes, 0 ≤ b.weight) : 0 ≤ (boxes.getD idx dummyBox).weight := by
  by_cases h : idx < boxes.length
  · rw [List.getD_eq_getElem _ _ h]
    exact hw _ (List.getElem_mem h)
  · rw [List.getD_eq_default _ _ (le_of_not_lt h)]
    norm_num [dummyBox]

/-- The full crush invariant: every placed entry's `max_load` field is the
budget computed at placement time, its weight is non-negative, and its
accumulated load respects the budget. -/
def PackInvC2 (st : PackState) : Prop :=
  ∀ j, j < st.placed.length →
    (st.placed.getD j dummyPlaced).max_load =
      max_load_for (st.placed.getD j dummyPlaced).weight
        ((st.placed.getD j dummyPlaced).box.w * (st.placed.getD j dummyPlaced).box.d) ∧
    0 ≤ (st.placed.getD j dummyPlaced).weight ∧
    (st.placed.getD j dummyPlaced).load_on_top ≤
      (st.placed.getD j dummyPlaced).max_load + eps9

theorem packStep_invC2 {t : Truck} {boxes : List Box} {st : PackState} {idx : ℕ}
    (hw : ∀ b ∈ boxes, 0 ≤ b.weight) (hs : PackInvC2 st) :
    PackInvC2 (packStep t boxes st idx) := by
  refine packStep_elim t boxes st idx ?_ ?_ ?_
  · intro h
    rw [packStep_heavy h]
    exact hs
  · intro h hsw
    rw [packStep_none h hsw]
    exact hs
  · intro b bl h hsw
    rw [packStep_accept h hsw]
    have hwnn := getD_box_weight_nonneg boxes idx hw
    have hbase : InvLoad st.placed := fun j hj => (hs j hj).2.2
    obtain ⟨hpl, hnn, hinvload⟩ := sweep_invLoad t (boxes.getD idx dummyBox).weight
      st.placed (pairsFor (unique_candidates st.candidates)
        (rotsOf (boxes.getD idx dummyBox))) hwnn hbase
    set sw := sweep t (boxes.getD idx dummyBox).weight st.placed
      (pairsFor (unique_candidates st.candidates) (rotsOf (boxes.getD idx dummyBox)))
    have hlen : sw.placed.length = st.placed.length := by
      rw [hpl, applyLoads_length]
    intro j hj
    dsimp only at hj ⊢
    rw [List.length_append, hlen, List.length_cons, List.length_nil] at hj
    by_cases hjlt : j < st.placed.length
    · rw [List.getD_append _ _ _ _ (by rw [hlen]; exact hjlt)]
      have hmax : (sw.placed.getD j dummyPlaced).max_load =
          (st.placed.getD j dummyPlaced).max_load := by
        rw [hpl, applyLoads_getD_max]
      have hwt : (sw.placed.getD j dummyPlaced).weight =
          (st.placed.getD j dummyPlaced).weight := by
        rw [hpl, applyLoads_getD_weight]
      have hbx : (sw.placed.getD j dummyPlaced).box =
          (st.placed.getD j dummyPlaced).box := by
        rw [hpl, applyLoads_getD_box]
      obtain ⟨hm, hwn, _⟩ := hs j hjlt
      refine ⟨?_, ?_, ?_⟩
      · rw [hmax, hwt, hbx, hm]
      · rw [hwt]; exact hwn
      · exact hinvload j (by rw [hlen]; exact hjlt)
    · have hje : j = st.placed.length := by omega
      rw [List.getD_append_right _ _ _ _ (by rw [hlen]; omega), hlen, hje,
        Nat.sub_self, List.getD_cons_zero]
      refine ⟨rfl, hwnn, ?_⟩
      have h1 : kEps ≤ max_load_for (boxes.getD idx dummyBox).weight (b.w * b.d) :=
        le_max_left _ _
      have h2 : (0 : ℚ) < kEps := by norm_num [kEps]
      have h3 : (0 : ℚ) ≤ eps9 := by norm_num [eps9]
      show (0 : ℚ) ≤ _ + eps9
      linarith

theorem packFinal_invC2 (t : Truck) (boxes : List Box) (order : List ℕ)
    (hw : ∀ b ∈ boxes, 0 ≤ b.weight) : PackInvC2 (packFinal t boxes order) := by
  unfold packFinal
  refine foldl_inv (P := PackInvC2) (fun st idx hs => packStep_invC2 hw hs) order _ ?_
  intro j hj
  simp [initState] at hj

/-- C2 (amended): in the final state of `pack_by_order` on any valid input
and permutation, every placed box's accumulated `load_on_top` never
exceeds `max(1e-8, min(6·weight, base_area·2500)) + 1e-9` — the code's
`max_load_for` budget with its `1e-9` slack — where `weight` is the
supporting box's weight and `base_area` its placed top-face area `w·d`.
(The claim's bound `min(6·weight, base_area·2500)` without the `1e-8`
floor and the `1e-9` slack is refuted by `claim2_crush_counterexample`.) -/
theorem claim2_crush_amended (t : Truck) (boxes : List Box) (order : List ℕ)
    (ht : 0 < t.w ∧ 0 < t.h ∧ 0 < t.d ∧ 0 < t.max_weight)
    (hb : ∀ b ∈ boxes, 0 < b.w ∧ 0 < b.h ∧ 0 < b.d ∧ 0 ≤ b.weight)
    (hord : List.Perm order (List.range boxes.length)) :
    ∀ p ∈ (packFinal t boxes order).placed,
      p.load_on_top ≤
        max kEps (min (p.weight * kMaxStackMultiplier)
          (p.box.w * p.box.d * kMaxPressure)) + eps9 := by
  intro p hp
  obtain ⟨j, hj, hje⟩ := List.getElem_of_mem hp
  have hinv := packFinal_invC2 t boxes order (fun b hbb => (hb b hbb).2.2.2) j hj
  obtain ⟨hm, _, hl⟩ := hinv
  rw [← List.getD_eq_getElem _ dummyPlaced hj] at hje
  subst hje
  rw [hm] at hl
  unfold max_load_for at hl
  exact hl

/-- C5: `support_ok_and_apply_load` is transactional on failure: for every
tentative candidate with `y > 1e-8`, whenever the centroid test fails, the
90% coverage test fails, or some support's crush check fails, the call
returns failure and no load is mutated (`none` carries the unchanged
state and an empty applied list); shares are committed only on success,
and exactly the recorded `applied` list is committed. -/
theorem claim5_kernel_transactional (cand : AABB) (w : ℚ) (placed : List PlacedState)
    (hy : kEps < cand.y) :
    ((centroidOk cand placed = false ∨
      sumAreas (supportsFor cand placed) + eps9 < kMinSupportRatio * baseAreaOf cand ∨
      crushFail cand w placed = true) →
      support_ok_and_apply_load cand w placed = none) ∧
    (∀ pl' ap, support_ok_and_apply_load cand w placed = some (pl', ap) →
      ap = sharesFor cand w placed ∧ pl' = applyLoads placed ap ∧
      centroidOk cand placed = true ∧
      ¬ sumAreas (supportsFor cand placed) + eps9 < kMinSupportRatio * baseAreaOf cand ∧
      crushFail cand w placed = false) := by
  constructor
  · rintro (hc | hc | hc)
    · unfold support_ok_and_apply_load
      rw [if_neg (not_le.mpr hy), hc]
      simp
    · unfold support_ok_and_apply_load
      rw [if_neg (not_le.mpr hy)]
      split_ifs <;> first | rfl | exact absurd hc (by assumption)
    · unfold support_ok_and_apply_load
      rw [if_neg (not_le.mpr hy), hc]
      split_ifs <;> first | rfl | simp_all
  · intro pl' ap hk
    unfold support_ok_and_apply_load at hk
    rw [if_neg (not_le.mpr hy)] at hk
    split_ifs at hk with h1 h2 h3
    obtain ⟨hp, ha⟩ := Prod.mk.injEq .. ▸ Option.some.inj hk
    subst ha
    have hcen : centroidOk cand placed = true := by
      revert h1
      cases centroidOk cand placed <;> simp
    have hcrush : crushFail cand w placed = false := by
      revert h3
      cases crushFail cand w placed <;> simp
    exact ⟨rfl, hp.symm, hcen, h2, hcrush⟩

theorem claim5_kernel_transactional_witness :
    support_ok_and_apply_load ⟨0, 1, 0, 1, 1, 1⟩ 1 [] = none :=
  (claim5_kernel_transactional ⟨0, 1, 0, 1, 1, 1⟩ 1 []
    (by norm_num [kEps])).1 (Or.inl rfl)

/-! ## C9: the candidate store bound -/

theorem bool_false_iff (b : Bool) : b = false ↔ ¬ b = true := by
  cases b <;> decide

theorem keyLt_iff (a b : ℤ × ℤ × ℤ) :
    keyLt a b = true ↔
      a.1 < b.1 ∨ (a.1 = b.1 ∧ (a.2.1 < b.2.1 ∨ (a.2.1 = b.2.1 ∧ a.2.2 < b.2.2))) := by
  unfold keyLt
  split_ifs with h1 h2
  · simp only [decide_eq_true_eq]
    constructor
    · exact fun h => Or.inl h
    · rintro (h | ⟨h', _⟩)
      · exact h
      · exact absurd h' h1
  · have e1 : a.1 = b.1 := not_not.mp h1
    simp only [decide_eq_true_eq]
    constructor
    · exact fun h => Or.inr ⟨e1, Or.inl h⟩
    · rintro (h | ⟨_, h | ⟨h', _⟩⟩)
      · omega
      · exact h
      · exact absurd h' h2
  · have e1 : a.1 = b.1 := not_not.mp h1
    have e2 : a.2.1 = b.2.1 := not_not.mp h2
    simp only [decide_eq_true_eq]
    constructor
    · exact fun h => Or.inr ⟨e1, Or.inr ⟨e2, h⟩⟩
    · rintro (h | ⟨_, h | ⟨_, h⟩⟩)
      · omega
      · omega
      · exact h

theorem keyLt_asym (a b : ℤ × ℤ × ℤ) (h : keyLt a b = true) : keyLt b a = false := by
  rw [keyLt_iff] at h
  rw [bool_false_iff, keyLt_iff]
  obtain ⟨a1, a2, a3⟩ := a
  obtain ⟨b1, b2, b3⟩ := b
  dsimp only at h ⊢
  omega

theorem keyLt_ntrans (a b c : ℤ × ℤ × ℤ) (h1 : keyLt b a = false)
    (h2 : keyLt c b = false) : keyLt c a = false := by
  rw [bool_false_iff, keyLt_iff] at h1 h2 ⊢
  obtain ⟨a1, a2, a3⟩ := a
  obtain ⟨b1, b2, b3⟩ := b
  obtain ⟨c1, c2, c3⟩ := c
  dsimp only at h1 h2 ⊢
  omega

theorem keyLt_irrefl (a : ℤ × ℤ × ℤ) : keyLt a a = false := by
  rw [bool_false_iff, keyLt_iff]
  obtain ⟨a1, a2, a3⟩ := a
  dsimp only
  omega

theorem keyLt_lt_of_not_of_ne {a b : ℤ × ℤ × ℤ} (h : keyLt a b = false)
    (hne : a ≠ b) : keyLt b a = true := by
  rw [bool_false_iff, keyLt_iff] at h
  rw [keyLt_iff]
  obtain ⟨a1, a2, a3⟩ := a
  obtain ⟨b1, b2, b3⟩ := b
  simp only [ne_eq, Prod.mk.injEq] at hne
  dsimp only at h ⊢
  omega

theorem keyLt_lt_of_lt_of_le {a b c : ℤ × ℤ × ℤ} (h1 : keyLt a b = true)
    (h2 : keyLt c b = false) : keyLt a c = true := by
  rw [keyLt_iff] at h1 ⊢
  rw [bool_false_iff, keyLt_iff] at h2
  obtain ⟨a1, a2, a3⟩ := a
  obtain ⟨b1, b2, b3⟩ := b
  obtain ⟨c1, c2, c3⟩ := c
  dsimp only at h1 h2 ⊢
  omega

theorem dedupAdjFrom_spec (prev : Candidate) (l : List Candidate)
    (hsort : l.Pairwise fun a b => keyLt (quantKey b) (quantKey a) = false)
    (hge : ∀ x ∈ l, keyLt (quantKey x) (quantKey prev) = false) :
    (∀ x ∈ dedupAdjFrom prev l,
      keyLt (quantKey x) (quantKey prev) = false ∧ quantKey x ≠ quantKey prev) ∧
    (dedupAdjFrom prev l).Pairwise fun a b => quantKey a ≠ quantKey b := by
  induction l generalizing prev with
  | nil => exact ⟨fun x hx => absurd hx (List.not_mem_nil x), List.Pairwise.nil⟩
  | cons x xs ih =>
    rcases hsort with _ | ⟨hx, hxs⟩
    unfold dedupAdjFrom
    by_cases he : quantKey x = quantKey prev
    · rw [if_pos he]
      refine ih prev hxs ?_
      intro y hy
      have := hx y hy
      rwa [he] at this
    · rw [if_neg he]
      obtain ⟨hprops, hpw⟩ := ih x hxs hx
      have hxprev : keyLt (quantKey x) (quantKey prev) = false :=
        hge x (List.mem_cons_self x xs)
      have hstrict : keyLt (quantKey prev) (quantKey x) = true :=
        keyLt_lt_of_not_of_ne hxprev he
      constructor
      · intro z hz
        rcases List.mem_cons.mp hz with rfl | hz'
        · exact ⟨hxprev, he⟩
        · obtain ⟨hzx, hzxne⟩ := hprops z hz'
          refine ⟨keyLt_ntrans _ _ _ hxprev hzx, ?_⟩
          intro heq
          have hlt : keyLt (quantKey prev) (quantKey z) = true :=
            keyLt_lt_of_lt_of_le hstrict hzx
          rw [heq] at hlt
          rw [keyLt_irrefl] at hlt
          exact Bool.noConfusion hlt
      · refine List.Pairwise.cons ?_ hpw
        intro z hz
        exact fun heq => (hprops z hz).2 heq.symm

theorem dedupAdj_pairwise (l : List Candidate)
    (hsort : l.Pairwise fun a b => keyLt (quantKey b) (quantKey a) = false) :
    (dedupAdj l).Pairwise fun a b => quantKey a ≠ quantKey b := by
  cases l with
  | nil => exact List.Pairwise.nil
  | cons c rest =>
    rcases hsort with _ | ⟨hc, hrest⟩
    unfold dedupAdj
    obtain ⟨hprops, hpw⟩ := dedupAdjFrom_spec c rest hrest hc
    refine List.Pairwise.cons ?_ hpw
    intro z hz
    exact fun heq => (hprops z hz).2 heq.symm

/-- C9: after normalization the candidate set holds at most 350 points,
pairwise distinct under the quantized key `(round(x·1e5), round(y·1e5),
round(z·1e5))`; when more than 350 distinct points remain after the
key-sorted adjacent dedup, exactly the first 350 of the stable `(y, z, x)`
ascending sort are kept, and otherwise the deduped list itself is the
result. -/
theorem claim9_candidate_bound (cs : List Candidate) :
    (unique_candidates cs).length ≤ 350 ∧
    (unique_candidates cs).Pairwise (fun a b => quantKey a ≠ quantKey b) ∧
    (350 < (dedupAdj (sortOrd (fun a b => keyLt (quantKey a) (quantKey b)) cs)).length →
      unique_candidates cs =
        (sortOrd yzxLt (dedupAdj (sortOrd (fun a b =>
          keyLt (quantKey a) (quantKey b)) cs))).take 350) ∧
    ((dedupAdj (sortOrd (fun a b => keyLt (quantKey a) (quantKey b)) cs)).length ≤ 350 →
      unique_candidates cs =
        dedupAdj (sortOrd (fun a b => keyLt (quantKey a) (quantKey b)) cs)) := by
  have hsort := sortOrd_pairwise (fun a b => keyLt (quantKey a) (quantKey b))
    (fun a b h => keyLt_asym _ _ h)
    (fun a b c h1 h2 => keyLt_ntrans _ _ _ h1 h2) cs
  have hded := dedupAdj_pairwise _ hsort
  have hsymm : Symmetric (fun a b : Candidate => quantKey a ≠ quantKey b) :=
    fun a b h => fun heq => h heq.symm
  have hperm := sortOrd_perm yzxLt
    (dedupAdj (sortOrd (fun a b => keyLt (quantKey a) (quantKey b)) cs))
  have hded2 : (sortOrd yzxLt (dedupAdj (sortOrd (fun a b =>
      keyLt (quantKey a) (quantKey b)) cs))).Pairwise
      (fun a b => quantKey a ≠ quantKey b) :=
    (hperm.pairwise_iff fun hab => hsymm hab).mpr hded
  unfold unique_candidates
  by_cases hlen : kMaxCandidates <
      (dedupAdj (sortOrd (fun a b => keyLt (quantKey a) (quantKey b)) cs)).length
  · rw [if_pos hlen]
    refine ⟨?_, ?_, fun _ => rfl, fun h => absurd hlen (by unfold kMaxCandidates; omega)⟩
    · rw [List.length_take]
      exact le_trans (min_le_left _ _) (by unfold kMaxCandidates; omega)
    · exact List.Pairwise.sublist (List.take_sublist _ _) hded2
  · rw [if_neg hlen]
    unfold kMaxCandidates at hlen
    refine ⟨by omega, hded, fun h => absurd h (by omega), fun _ => rfl⟩

/-! ## C6: monotone improvement over the heuristic seed -/

/-- The driver invariant: every individual's score field is the score of
its result, and some individual scores at least `s0`. -/
def GAInv (s0 : ℚ) (pop : List Individual) : Prop :=
  (∀ i ∈ pop, i.score = score_result i.result) ∧ ∃ i ∈ pop, s0 ≤ i.score

theorem scoreDescLt_asym (a b : Individual) (h : scoreDescLt a b = true) :
    scoreDescLt b a = false := by
  unfold scoreDescLt at h ⊢
  simp only [decide_eq_true_eq] at h
  simp only [bool_false_iff, decide_eq_true_eq]
  exact not_lt.mpr (le_of_lt h)

theorem scoreDescLt_ntrans (a b c : Individual) (h1 : scoreDescLt b a = false)
    (h2 : scoreDescLt c b = false) : scoreDescLt c a = false := by
  unfold scoreDescLt at h1 h2 ⊢
  rw [bool_false_iff, decide_eq_true_eq] at h1 h2 ⊢
  intro hc
  push_neg at h1 h2
  linarith

/-- The head of the score-sorted population is a maximum and a member. -/
theorem sortOrd_score_head (pop : List Individual) {w : Individual} (hw : w ∈ pop) :
    w.score ≤ ((sortOrd scoreDescLt pop).getD 0 dummyInd).score ∧
    (sortOrd scoreDescLt pop).getD 0 dummyInd ∈ pop := by
  have hperm := sortOrd_perm scoreDescLt pop
  have hpw := sortOrd_pairwise scoreDescLt scoreDescLt_asym scoreDescLt_ntrans pop
  have hwmem : w ∈ sortOrd scoreDescLt pop := hperm.mem_iff.mpr hw
  rcases hs : sortOrd scoreDescLt pop with _ | ⟨h, rest⟩
  · rw [hs] at hwmem
    exact absurd hwmem (List.not_mem_nil w)
  · rw [hs] at hwmem hpw hperm
    rcases hpw with _ | ⟨hhead, _⟩
    constructor
    · rw [List.getD_cons_zero]
      rcases List.mem_cons.mp hwmem with rfl | hw'
      · exact le_refl _
      · have := hhead w hw'
        unfold scoreDescLt at this
        rw [bool_false_iff, decide_eq_true_eq] at this
        exact not_lt.mp this
    · rw [List.getD_cons_zero]
      exact hperm.mem_iff.mp (List.mem_cons_self h rest)

theorem mkRandoms_all (ops : RngOps σ) (t : Truck) (boxes : List Box) :
    ∀ (k : ℕ) (s : σ) (i : Individual), i ∈ (mkRandoms ops t boxes k s).1 →
      ∃ ord, i = evalIndividual t boxes ord := by
  intro k
  induction k with
  | zero => intro s i hi; simp [mkRandoms] at hi
  | succ m ih =>
    intro s i hi
    unfold mkRandoms at hi
    rcases hsh : shuffleL ops (List.range boxes.length) s with ⟨ord, s1⟩
    rcases hmr : mkRandoms ops t boxes m s1 with ⟨rest, s2⟩
    simp only [hsh, hmr, List.mem_cons] at hi
    rcases hi with rfl | hi'
    · exact ⟨ord, rfl⟩
    · exact ih s1 i (by rw [hmr]; exact hi')

theorem fillOffspring_all (ops : RngOps σ) (t : Truck) (boxes : List Box)
    (pop : List Individual) (bound n : ℕ) (mrate : ℚ) :
    ∀ (k : ℕ) (s : σ) (i : Individual),
      i ∈ (fillOffspring ops t boxes pop bound n mrate k s).1 →
      ∃ ord, i = evalIndividual t boxes ord := by
  intro k
  induction k with
  | zero => intro s i hi; simp [fillOffspring] at hi
  | succ m ih =>
    intro s i hi
    unfold fillOffspring at hi
    rcases hmo : mkOffspring ops t boxes pop bound n mrate s with ⟨c, s1⟩
    rcases hfo : fillOffspring ops t boxes pop bound n mrate m s1 with ⟨rest, s2⟩
    simp only [hmo, hfo, List.mem_cons] at hi
    rcases hi with hic | hi'
    · refine ⟨(offspringOrder ops pop bound n mrate s).1, ?_⟩
      have hc : c = (mkOffspring ops t boxes pop bound n mrate s).1 := by rw [hmo]
      rw [hic, hc]
      rfl
    · exact ih s1 i (by rw [hfo]; exact hi')

theorem getD_mem_take {l : List Individual} {k : ℕ} (hk : 0 < k) (hne : l ≠ []) :
    l.getD 0 dummyInd ∈ l.take k := by
  cases l with
  | nil => exact absurd rfl hne
  | cons h rest =>
    cases k with
    | zero => omega
    | succ m =>
      rw [List.getD_cons_zero, List.take_succ_cons]
      exact List.mem_cons_self _ _

theorem generation_GAInv (ops : RngOps σ) (t : Truck) (boxes : List Box)
    (popN n : ℕ) (mrate : ℚ) (pop : List Individual) (s : σ) (s0 : ℚ)
    (hpop : GAInv s0 pop) :
    GAInv s0 (generation ops t boxes popN n mrate pop s).1 := by
  obtain ⟨hall, w, hw, hws⟩ := hpop
  unfold generation
  rcases hfo : fillOffspring ops t boxes (sortOrd scoreDescLt pop) (popN - 1) n mrate
    (popN - max 1 (popN / 10)) s with ⟨offs, s1⟩
  simp only [hfo]
  have hperm := sortOrd_perm scoreDescLt pop
  constructor
  · intro i hi
    rcases List.mem_append.mp hi with hi' | hi'
    · exact hall i (hperm.mem_iff.mp (List.mem_of_mem_take hi'))
    · obtain ⟨ord, rfl⟩ := fillOffspring_all ops t boxes _ _ _ _ _ s i
        (by rw [hfo]; exact hi')
      rfl
  · obtain ⟨hle, hmem⟩ := sortOrd_score_head pop hw
    have hne : sortOrd scoreDescLt pop ≠ [] := by
      intro hc
      have := hperm.mem_iff.mpr hw
      rw [hc] at this
      exact List.not_mem_nil w this
    refine ⟨(sortOrd scoreDescLt pop).getD 0 dummyInd, ?_, le_trans hws hle⟩
    exact List.mem_append.mpr (Or.inl (getD_mem_take (by omega) hne))

theorem gaLoop_GAInv (ops : RngOps σ) (t : Truck) (boxes : List Box)
    (popN n : ℕ) (mrate : ℚ) (s0 : ℚ) :
    ∀ (g : ℕ) (pop : List Individual) (s : σ), GAInv s0 pop →
      GAInv s0 (gaLoop ops t boxes popN n mrate g (pop, s)).1 := by
  intro g
  induction g with
  | zero => exact fun pop s h => h
  | succ m ih =>
    intro pop s hpop
    show GAInv s0 (gaLoop ops t boxes popN n mrate m
      (generation ops t boxes popN n mrate pop s)).1
    rcases hg : generation ops t boxes popN n mrate pop s with ⟨pop', s'⟩
    have := generation_GAInv ops t boxes popN n mrate pop s s0 hpop
    rw [hg] at this
    exact ih pop' s' this

theorem optimize_ga_rng_ge (ops : RngOps σ) (t : Truck) (boxes : List Box)
    (population generations : ℤ) (mrate : ℚ) (s0 : σ) (hne : boxes ≠ []) :
    score_result (pack_by_order t boxes (heuristicOrder boxes)) ≤
      score_result (optimize_ga_rng ops t boxes population generations mrate s0) := by
  unfold optimize_ga_rng
  have hemp : boxes.isEmpty = false := by
    cases boxes with
    | nil => exact absurd rfl hne
    | cons b bs => rfl
  have hcond : ¬ (boxes.isEmpty = true) := fun h => by
    rw [hemp] at h
    exact Bool.noConfusion h
  rw [if_neg hcond]
  set s0q := score_result (pack_by_order t boxes (heuristicOrder boxes)) with hs0
  have hinit : GAInv s0q (evalIndividual t boxes (heuristicOrder boxes) ::
      (mkRandoms ops t boxes (popCount population boxes.length - 1) s0).1) := by
    constructor
    · intro i hi
      rcases List.mem_cons.mp hi with rfl | hi'
      · rfl
      · obtain ⟨ord, rfl⟩ := mkRandoms_all ops t boxes
          (popCount population boxes.length - 1) s0 i hi'
        rfl
    · exact ⟨evalIndividual t boxes (heuristicOrder boxes), List.mem_cons_self _ _,
        le_refl _⟩
  have hfin := gaLoop_GAInv ops t boxes (popCount population boxes.length)
    boxes.length mrate s0q (genCount generations boxes.length)
    (evalIndividual t boxes (heuristicOrder boxes) ::
      (mkRandoms ops t boxes (popCount population boxes.length - 1) s0).1)
    ((mkRandoms ops t boxes (popCount population boxes.length - 1) s0).2) hinit
  obtain ⟨hall, w, hw, hws⟩ := hfin
  obtain ⟨hle, hmem⟩ := sortOrd_score_head _ hw
  have := hall _ hmem
  rw [← this]
  exact le_trans hws hle

/-- C6: for every non-empty box list and all parameter values, the result
of `optimize_ga` scores (`score_result`: `100·utilization − 0.5·|unplaced|`)
at least the heuristic-seeded individual 0, whose order is the stable sort
of indices by volume descending with ties by priority descending
(`heuristicOrder`). -/
theorem claim6_monotone_improvement (t : Truck) (boxes : List Box)
    (population generations : ℤ) (mrate : ℚ) (seed : ℕ) (hne : boxes ≠ []) :
    score_result (pack_by_order t boxes (heuristicOrder boxes)) ≤
      score_result (optimize_ga t boxes population generations mrate seed) :=
  optimize_ga_rng_ge stdRng t boxes population generations mrate (mt_init seed) hne

theorem claim6_monotone_improvement_witness :
    score_result (pack_by_order ⟨1, 1, 1, 10⟩ [⟨"A", 1, 1, 1, 1, 1⟩]
      (heuristicOrder [⟨"A", 1, 1, 1, 1, 1⟩])) ≤
    score_result (optimize_ga ⟨1, 1, 1, 10⟩ [⟨"A", 1, 1, 1, 1, 1⟩] 40 40 (2/25) 12345) :=
  claim6_monotone_improvement ⟨1, 1, 1, 10⟩ [⟨"A", 1, 1, 1, 1, 1⟩] 40 40 (2/25) 12345
    (by decide)

/-- C7: `optimize_ga` is deterministic — equal truck, box list,
`population`, `generations`, `mutation_rate` and `seed` yield equal
`Result` values (the embedding is a pure function of exactly these six
inputs: the Mersenne-Twister stream and the draw layers are deterministic
functions of `seed`). -/
theorem claim7_deterministic (t₁ t₂ : Truck) (b₁ b₂ : List Box)
    (p₁ p₂ g₁ g₂ : ℤ) (m₁ m₂ : ℚ) (s₁ s₂ : ℕ)
    (ht : t₁ = t₂) (hb : b₁ = b₂) (hp : p₁ = p₂) (hg : g₁ = g₂)
    (hm : m₁ = m₂) (hs : s₁ = s₂) :
    optimize_ga t₁ b₁ p₁ g₁ m₁ s₁ = optimize_ga t₂ b₂ p₂ g₂ m₂ s₂ := by
  subst ht; subst hb; subst hp; subst hg; subst hm; subst hs; rfl

theorem claim7_deterministic_witness :
    optimize_ga ⟨1, 1, 1, 10⟩ [⟨"A", 1, 1, 1, 1, 1⟩] 4 1 0 12345 =
      optimize_ga ⟨1, 1, 1, 10⟩ [⟨"A", 1, 1, 1, 1, 1⟩] 4 1 0 12345 :=
  claim7_deterministic _ _ _ _ _ _ _ _ _ _ _ _ rfl rfl rfl rfl rfl rfl

/-! ## C8: duplicate ids fail fast -/

theorem hasDuplicateId_of_pair {boxes : List Box} {i j : ℕ} (hij : i < j)
    (hj : j < boxes.length)
    (heq : (boxes.getD i dummyBox).id = (boxes.getD j dummyBox).id) :
    hasDuplicateId boxes = true := by
  induction boxes generalizing i j with
  | nil => simp at hj
  | cons b rest ih =>
    unfold hasDuplicateId
    rw [Bool.or_eq_true]
    cases i with
    | zero =>
      left
      cases j with
      | zero => omega
      | succ j' =>
        rw [List.any_eq_true]
        refine ⟨rest.getD j' dummyBox, ?_, ?_⟩
        · have hj' : j' < rest.length := by simpa using hj
          rw [List.getD_eq_getElem _ _ hj']
          exact List.getElem_mem hj'
        · rw [beq_iff_eq]
          simp only [List.getD_cons_zero, List.getD_cons_succ] at heq
          exact heq.symm
    | succ i' =>
      right
      cases j with
      | zero => omega
      | succ j' =>
        simp only [List.getD_cons_succ] at heq
        exact ih (by omega) (by simpa using hj) heq

/-- C8 (spec-modelled): when two input boxes share an id, the validated
optimization call fails fast with `DuplicateId` before any optimization is
performed — the checked entry point returns the error and never invokes
`optimize_ga`. -/
theorem claim8_duplicate_id (t : Truck) (boxes : List Box)
    (population generations : ℤ) (mrate : ℚ) (seed : ℕ)
    (h : ∃ i j, i < j ∧ j < boxes.length ∧
      (boxes.getD i dummyBox).id = (boxes.getD j dummyBox).id) :
    optimize_checked t boxes population generations mrate seed =
      Except.error EngineError.duplicateId := by
  obtain ⟨i, j, hij, hj, heq⟩ := h
  unfold optimize_checked
  rw [hasDuplicateId_of_pair hij hj heq]
  rfl

theorem claim8_duplicate_id_witness :
    optimize_checked ⟨1, 1, 1, 10⟩ [⟨"A", 1, 1, 1, 1, 1⟩, ⟨"A", 2, 2, 2, 1, 1⟩]
      4 1 0 7 = Except.error EngineError.duplicateId :=
  claim8_duplicate_id _ _ _ _ _ _ ⟨0, 1, by decide, by decide, rfl⟩

/-! ## C4: which pair the sweep accepts -/

/-- The sweep invariant for the selection order: when a best exists, the
ghost trace of pairs that passed at their evaluation time splits around
the best — everything passed before it is strictly worse under the
`(y, z, x)` comparator, everything passed after it is not better. -/
def SweepInvMin (s : SweepState) : Prop :=
  (s.best = none → s.passed = []) ∧
  (∀ b bl, s.best = some (b, bl) →
    ∃ l1 l2, s.passed = l1 ++ b :: l2 ∧
      (∀ q ∈ l1, better b q = true) ∧ (∀ q ∈ l2, better q b = false))

theorem sweepStep_invMin {t : Truck} {w : ℚ} {s : SweepState} {p : AABB}
    (hs : SweepInvMin s) : SweepInvMin (sweepStep t w s p) := by
  obtain ⟨hnone, hsome⟩ := hs
  refine sweepStep_elim t w s p ?_ ?_ ?_ ?_
  · intro he
    rw [he]
    exact ⟨hnone, hsome⟩
  · intro pl' ap hins hcol hk hb he
    rw [he]
    constructor
    · intro hc
      exact Option.noConfusion (show Option.some (p, ap) = none from hc)
    · intro b bl hbl
      have hbl2 : Option.some (p, ap) = some (b, bl) := hbl
      injection hbl2 with hbl3
      injection hbl3 with h1 h2
      subst h1
      subst h2
      refine ⟨[], [], ?_, ?_, ?_⟩
      · show s.passed ++ [p] = [] ++ p :: []
        rw [hnone hb]
      · intro q hq
        exact absurd hq (List.not_mem_nil q)
      · intro q hq
        exact absurd hq (List.not_mem_nil q)
  · intro pl' ap b0 bl0 hins hcol hk hb hbet he
    rw [he]
    constructor
    · intro hc
      exact Option.noConfusion (show Option.some (p, ap) = none from hc)
    · intro b bl hbl
      have hbl2 : Option.some (p, ap) = some (b, bl) := hbl
      injection hbl2 with hbl3
      injection hbl3 with h1 h2
      subst h1
      subst h2
      obtain ⟨l1, l2, hdec, hl1, hl2⟩ := hsome b0 bl0 hb
      refine ⟨l1 ++ b0 :: l2, [], ?_, ?_, ?_⟩
      · show s.passed ++ [p] = (l1 ++ b0 :: l2) ++ p :: []
        rw [hdec]
      · intro q hq
        rcases List.mem_append.mp hq with hq' | hq'
        · exact better_trans hbet (hl1 q hq')
        · rcases List.mem_cons.mp hq' with rfl | hq''
          · exact hbet
          · exact better_of_better_of_not hbet (hl2 q hq'')
      · intro q hq
        exact absurd hq (List.not_mem_nil q)
  · intro pl' ap b0 bl0 hins hcol hk hb hbet he
    rw [he]
    constructor
    · intro hc
      exact Option.noConfusion (show Option.some (b0, bl0) = none from hc)
    · intro b bl hbl
      have hbl2 : Option.some (b0, bl0) = some (b, bl) := hbl
      injection hbl2 with hbl3
      injection hbl3 with h1 h2
      subst h1
      subst h2
      obtain ⟨l1, l2, hdec, hl1, hl2⟩ := hsome b0 bl0 hb
      refine ⟨l1, l2 ++ [p], ?_, hl1, ?_⟩
      · show s.passed ++ [p] = l1 ++ b0 :: (l2 ++ [p])
        rw [hdec]
        simp
      · intro q hq
        rcases List.mem_append.mp hq with hq' | hq'
        · exact hl2 q hq'
        · rcases List.mem_singleton.mp hq' with rfl
          exact hbet

theorem sweep_invMin (t : Truck) (w : ℚ) (base : List PlacedState)
    (pairs : List AABB) : SweepInvMin (sweep t w base pairs) := by
  unfold sweep
  refine foldl_inv (fun s p hs => sweepStep_invMin hs) pairs _ ?_
  exact ⟨fun _ => rfl, fun b bl hbl =>
    Option.noConfusion (show (none : Option (AABB × List (ℕ × ℚ))) = some (b, bl) from hbl)⟩

/-- C4 (amended): for a box whose weight check passes, consider the sweep
over the normalized candidate points × the six orientations, where each
pair's acceptance tests (containment, collision, and the support/crush
kernel) run in the load state current at that pair's turn — a state that
includes the provisional loads committed for the best pair found so far.
The accepted placement is lexicographically minimal by `(y, z, x)` among
the pairs that passed at their evaluation time, exact ties won by the
earliest-enumerated one (every pair passed before the accepted one is
strictly greater, none passed after it is smaller); if no pair passes, the
box id is appended to `unplaced`.  (Static feasibility — the kernel
evaluated in the attempt's initial load state — is refuted as the
selection criterion by `claim4_counterexample`.) -/
theorem claim4_lex_min_amended (t : Truck) (boxes : List Box) (st : PackState)
    (idx : ℕ)
    (hw : ¬ (boxes.getD idx dummyBox).weight > st.remaining + eps9) :
    ((sweep t (boxes.getD idx dummyBox).weight st.placed
        (pairsFor (unique_candidates st.candidates)
          (rotsOf (boxes.getD idx dummyBox)))).best = none →
      (sweep t (boxes.getD idx dummyBox).weight st.placed
        (pairsFor (unique_candidates st.candidates)
          (rotsOf (boxes.getD idx dummyBox)))).passed = [] ∧
      packStep t boxes st idx =
        { st with
            candidates := unique_candidates st.candidates
            unplaced := st.unplaced ++ [(boxes.getD idx dummyBox).id] }) ∧
    (∀ b bl, (sweep t (boxes.getD idx dummyBox).weight st.placed
        (pairsFor (unique_candidates st.candidates)
          (rotsOf (boxes.getD idx dummyBox)))).best = some (b, bl) →
      (∃ l1 l2, (sweep t (boxes.getD idx dummyBox).weight st.placed
          (pairsFor (unique_candidates st.candidates)
            (rotsOf (boxes.getD idx dummyBox)))).passed = l1 ++ b :: l2 ∧
        (∀ q ∈ l1, better b q = true) ∧ (∀ q ∈ l2, better q b = false)) ∧
      (packStep t boxes st idx).placedOut = st.placedOut ++
        [⟨(boxes.getD idx dummyBox).id, b.x, b.y, b.z, b.w, b.h, b.d⟩]) := by
  obtain ⟨hnone, hsome⟩ := sweep_invMin t (boxes.getD idx dummyBox).weight st.placed
    (pairsFor (unique_candidates st.candidates) (rotsOf (boxes.getD idx dummyBox)))
  constructor
  · intro hb
    refine ⟨hnone hb, ?_⟩
    exact packStep_none hw hb
  · intro b bl hb
    refine ⟨hsome b bl hb, ?_⟩
    rw [packStep_accept hw hb]

theorem claim4_lex_min_amended_witness :
    (sweep ⟨1, 1, 1, 10⟩ (([⟨"A", 1, 1, 1, 1, 1⟩] : List Box).getD 0 dummyBox).weight
      (⟨[], [], 10, [], [], 0, 0⟩ : PackState).placed
      (pairsFor (unique_candidates (⟨[], [], 10, [], [], 0, 0⟩ : PackState).candidates)
        (rotsOf (([⟨"A", 1, 1, 1, 1, 1⟩] : List Box).getD 0 dummyBox)))).passed = [] ∧
    packStep ⟨1, 1, 1, 10⟩ [⟨"A", 1, 1, 1, 1, 1⟩] ⟨[], [], 10, [], [], 0, 0⟩ 0 =
      { (⟨[], [], 10, [], [], 0, 0⟩ : PackState) with
          candidates := unique_candidates (⟨[], [], 10, [], [], 0, 0⟩ : PackState).candidates
          unplaced := (⟨[], [], 10, [], [], 0, 0⟩ : PackState).unplaced ++
            [(([⟨"A", 1, 1, 1, 1, 1⟩] : List Box).getD 0 dummyBox).id] } :=
  (claim4_lex_min_amended ⟨1, 1, 1, 10⟩ [⟨"A", 1, 1, 1, 1, 1⟩] ⟨[], [], 10, [], [], 0, 0⟩ 0
    (by norm_num [dummyBox, eps9])).1 rfl

/-! ### C4 counterexample instance: provisional loads of the best-so-far
pair block a lexicographically smaller, statically feasible pair. -/

/-- Counterexample truck: 2 wide, 2 high, 2 deep, ample weight budget. -/
def c4T : Truck := ⟨2, 2, 2, 100⟩

/-- Counterexample boxes: a 2×1×2 pallet `P` (crush budget 6), a 1×1×1
spacer `Q` of weight 7/2 that ends up on `P`, and a 1×1×1 cube `X` of
weight 5/2 whose share saturates `P`'s remaining budget. -/
def c4Boxes : List Box :=
  [⟨"P", 2, 1, 2, 1, 1⟩, ⟨"Q", 1, 1, 1, 7/2, 1⟩, ⟨"X", 1, 1, 1, 5/2, 1⟩]

set_option maxRecDepth 10000

set_option maxHeartbeats 1600000 in
theorem c4_st1 : packFinal c4T c4Boxes [0] =
    ⟨[⟨⟨0, 0, 0, 2, 1, 2⟩, "P", 1, 6, 0⟩],
     [⟨0, 0, 0⟩, ⟨2, 0, 0⟩, ⟨0, 0, 2⟩, ⟨0, 1, 0⟩],
     99, [⟨"P", 0, 0, 0, 2, 1, 2⟩], [], 4, 1⟩ := by
  norm_num [packFinal, packStep, initState, unique_candidates, dedupAdj, dedupAdjFrom,
    sortOrd, insertOrd, keyLt, quantKey, llround, yzxLt, kMaxCandidates, pairsFor, rotsOf,
    sweep, sweepStep, inside_truck, collides_any, intersects, support_ok_and_apply_load,
    centroidOk, crushFail, sharesFor, supportsFor, sumAreas, shareOf, baseAreaOf, enumL,
    overlap_area_xz, overlap_1d, point_in_overlap_xz, fabs, applyLoads, rollback_loads,
    addLoadAt, better, max_load_for, add_candidate, volume, kEps, eps9, epsFace,
    kMinSupportRatio, kMaxStackMultiplier, kMaxPressure, dummyBox, dummyPlaced,
    min_def, max_def, c4T, c4Boxes, Bool.and_eq_true, Bool.or_eq_true, beq_iff_eq,
    deltaOf, List.filterMap_cons, List.filterMap_nil]

set_option maxHeartbeats 1600000 in
theorem c4_st2 : packFinal c4T c4Boxes [0, 1] =
    ⟨[⟨⟨0, 0, 0, 2, 1, 2⟩, "P", 1, 6, 7/2⟩, ⟨⟨0, 1, 0, 1, 1, 1⟩, "Q", 7/2, 21, 0⟩],
     [⟨0, 0, 0⟩, ⟨0, 0, 2⟩, ⟨0, 1, 0⟩, ⟨2, 0, 0⟩, ⟨1, 1, 0⟩, ⟨0, 1, 1⟩, ⟨0, 2, 0⟩],
     191/2, [⟨"P", 0, 0, 0, 2, 1, 2⟩, ⟨"Q", 0, 1, 0, 1, 1, 1⟩], [], 5, 9/2⟩ := by
  have h01 : packFinal c4T c4Boxes [0, 1] =
      packStep c4T c4Boxes (packFinal c4T c4Boxes [0]) 1 := rfl
  rw [h01, c4_st1]
  norm_num [packStep, unique_candidates, dedupAdj, dedupAdjFrom,
    sortOrd, insertOrd, keyLt, quantKey, llround, yzxLt, kMaxCandidates, pairsFor, rotsOf,
    sweep, sweepStep, inside_truck, collides_any, intersects, support_ok_and_apply_load,
    centroidOk, crushFail, sharesFor, supportsFor, sumAreas, shareOf, baseAreaOf, enumL,
    overlap_area_xz, overlap_1d, point_in_overlap_xz, fabs, applyLoads, rollback_loads,
    addLoadAt, better, max_load_for, add_candidate, volume, kEps, eps9, epsFace,
    kMinSupportRatio, kMaxStackMultiplier, kMaxPressure, dummyBox, dummyPlaced,
    min_def, max_def, c4T, c4Boxes, Bool.and_eq_true, Bool.or_eq_true, beq_iff_eq,
    deltaOf, List.filterMap_cons, List.filterMap_nil]

set_option maxHeartbeats 1600000 in
theorem c4_st3 : packFinal c4T c4Boxes [0, 1, 2] =
    ⟨[⟨⟨0, 0, 0, 2, 1, 2⟩, "P", 1, 6, 6⟩, ⟨⟨0, 1, 0, 1, 1, 1⟩, "Q", 7/2, 21, 0⟩,
      ⟨⟨0, 1, 1, 1, 1, 1⟩, "X", 5/2, 15, 0⟩],
     [⟨0, 0, 0⟩, ⟨0, 0, 2⟩, ⟨0, 1, 0⟩, ⟨0, 1, 1⟩, ⟨0, 2, 0⟩, ⟨1, 1, 0⟩, ⟨2, 0, 0⟩,
      ⟨1, 1, 1⟩, ⟨0, 1, 2⟩, ⟨0, 2, 1⟩],
     93, [⟨"P", 0, 0, 0, 2, 1, 2⟩, ⟨"Q", 0, 1, 0, 1, 1, 1⟩, ⟨"X", 0, 1, 1, 1, 1, 1⟩],
     [], 6, 7⟩ := by
  have h12 : packFinal c4T c4Boxes [0, 1, 2] =
      packStep c4T c4Boxes (packFinal c4T c4Boxes [0, 1]) 2 := rfl
  rw [h12, c4_st2]
  norm_num [packStep, unique_candidates, dedupAdj, dedupAdjFrom,
    sortOrd, insertOrd, keyLt, quantKey, llround, yzxLt, kMaxCandidates, pairsFor, rotsOf,
    sweep, sweepStep, inside_truck, collides_any, intersects, support_ok_and_apply_load,
    centroidOk, crushFail, sharesFor, supportsFor, sumAreas, shareOf, baseAreaOf, enumL,
    overlap_area_xz, overlap_1d, point_in_overlap_xz, fabs, applyLoads, rollback_loads,
    addLoadAt, better, max_load_for, add_candidate, volume, kEps, eps9, epsFace,
    kMinSupportRatio, kMaxStackMultiplier, kMaxPressure, dummyBox, dummyPlaced,
    min_def, max_def, c4T, c4Boxes, Bool.and_eq_true, Bool.or_eq_true, beq_iff_eq,
    deltaOf, List.filterMap_cons, List.filterMap_nil]

/-- C4 is refuted as stated: in the run over valid truck `c4T`, valid boxes
`c4Boxes`, and the permutation order `[0, 1, 2]`, box `X` (index 2, weight
within budget) has a pair — normalized candidate `(1, 1, 0)` with the first
orientation — that is inside the truck, collides with no placed AABB, and
passes the support/crush kernel in the load state at the start of the
attempt, yet the accepted placement origin `(0, 1, 1)` is lexicographically
greater by `(y, z, x)`.  The sweep evaluates each pair against loads that
include the provisional shares of the best pair found so far, so the
earlier-enumerated `(0, 1, 1)` saturates `P`'s crush budget and blocks the
statically feasible `(1, 1, 0)`. -/
theorem claim4_counterexample :
    (0 < c4T.w ∧ 0 < c4T.h ∧ 0 < c4T.d ∧ 0 < c4T.max_weight) ∧
    (∀ b ∈ c4Boxes, 0 < b.w ∧ 0 < b.h ∧ 0 < b.d ∧ 0 ≤ b.weight) ∧
    List.Perm [0, 1, 2] (List.range c4Boxes.length) ∧
    ¬ ((c4Boxes.getD 2 dummyBox).weight >
        (packFinal c4T c4Boxes [0, 1]).remaining + eps9) ∧
    (⟨1, 1, 0⟩ : Candidate) ∈
      unique_candidates (packFinal c4T c4Boxes [0, 1]).candidates ∧
    inside_truck c4T ⟨1, 1, 0, 1, 1, 1⟩ = true ∧
    collides_any (packFinal c4T c4Boxes [0, 1]).placed ⟨1, 1, 0, 1, 1, 1⟩ = false ∧
    (support_ok_and_apply_load ⟨1, 1, 0, 1, 1, 1⟩ (c4Boxes.getD 2 dummyBox).weight
      (packFinal c4T c4Boxes [0, 1]).placed).isSome = true ∧
    better ⟨1, 1, 0, 1, 1, 1⟩ ⟨0, 1, 1, 1, 1, 1⟩ = true ∧
    (pack_by_order c4T c4Boxes [0, 1, 2]).placed =
      [⟨"P", 0, 0, 0, 2, 1, 2⟩, ⟨"Q", 0, 1, 0, 1, 1, 1⟩, ⟨"X", 0, 1, 1, 1, 1, 1⟩] := by
  have hcore : (support_ok_and_apply_load ⟨1, 1, 0, 1, 1, 1⟩
      (c4Boxes.getD 2 dummyBox).weight
      [⟨⟨0, 0, 0, 2, 1, 2⟩, "P", 1, 6, 7/2⟩, ⟨⟨0, 1, 0, 1, 1, 1⟩, "Q", 7/2, 21, 0⟩]).isSome =
        true := by
    norm_num [support_ok_and_apply_load, centroidOk, crushFail, sharesFor, supportsFor,
      sumAreas, shareOf, baseAreaOf, enumL, overlap_area_xz, overlap_1d,
      point_in_overlap_xz, fabs, applyLoads, addLoadAt, kEps, eps9, epsFace,
      kMinSupportRatio, kMaxStackMultiplier, kMaxPressure, c4Boxes, dummyBox,
      min_def, max_def, Option.isSome, Bool.and_eq_true, Bool.or_eq_true, beq_iff_eq,
      deltaOf, List.filterMap_cons, List.filterMap_nil]
  refine ⟨by norm_num [c4T], ?_, by decide, ?_, ?_, by norm_num [inside_truck, c4T], ?_,
    ?_, by norm_num [better], ?_⟩
  · intro b hb
    rcases List.mem_cons.mp hb with rfl | hb
    · norm_num
    rcases List.mem_cons.mp hb with rfl | hb
    · norm_num
    rcases List.mem_cons.mp hb with rfl | hb
    · norm_num
    exact absurd hb (List.not_mem_nil b)
  · rw [c4_st2]
    norm_num [c4Boxes, dummyBox, eps9]
  · rw [c4_st2]
    norm_num [unique_candidates, dedupAdj, dedupAdjFrom, sortOrd, insertOrd, keyLt,
      quantKey, llround, yzxLt, kMaxCandidates]
  · rw [c4_st2]
    norm_num [collides_any, intersects]
  · rw [c4_st2]
    exact hcore
  · have h3 : (pack_by_order c4T c4Boxes [0, 1, 2]).placed =
        (packFinal c4T c4Boxes [0, 1, 2]).placedOut := rfl
    rw [h3, c4_st3]

/-! ### C2 counterexample instance: the kEps floor and the 1e-9 slack let
`load_on_top` exceed `min(6·weight, base_area·2500)`. -/

/-- Counterexample truck: 1 wide, 2 high, 1 deep. -/
def c2T : Truck := ⟨1, 2, 1, 10⟩

/-- Counterexample boxes: a featherweight 1×1×1 base `A` (weight 1e-9, so
`min(6·weight, base·2500) = 6e-9` but the code floors its budget at
`kEps = 1e-8`) and a 1×1×1 top box `B` of weight 1.1e-8, which the crush
check admits since `1.1e-8 ≤ 1e-8 + 1e-9`. -/
def c2Boxes : List Box :=
  [⟨"A", 1, 1, 1, 1/10^9, 1⟩, ⟨"B", 1, 1, 1, 11/10^9, 1⟩]

set_option maxHeartbeats 1600000 in
theorem c2_st1 : packFinal c2T c2Boxes [0] =
    ⟨[⟨⟨0, 0, 0, 1, 1, 1⟩, "A", 1/10^9, 1/10^8, 0⟩],
     [⟨0, 0, 0⟩, ⟨1, 0, 0⟩, ⟨0, 0, 1⟩, ⟨0, 1, 0⟩],
     9999999999/10^9, [⟨"A", 0, 0, 0, 1, 1, 1⟩], [], 1, 1/10^9⟩ := by
  norm_num [packFinal, packStep, initState, unique_candidates, dedupAdj, dedupAdjFrom,
    sortOrd, insertOrd, keyLt, quantKey, llround, yzxLt, kMaxCandidates, pairsFor, rotsOf,
    sweep, sweepStep, inside_truck, collides_any, intersects, support_ok_and_apply_load,
    centroidOk, crushFail, sharesFor, supportsFor, sumAreas, shareOf, baseAreaOf, enumL,
    overlap_area_xz, overlap_1d, point_in_overlap_xz, fabs, applyLoads, rollback_loads,
    addLoadAt, better, max_load_for, add_candidate, volume, kEps, eps9, epsFace,
    kMinSupportRatio, kMaxStackMultiplier, kMaxPressure, dummyBox, dummyPlaced,
    min_def, max_def, c2T, c2Boxes, Bool.and_eq_true, Bool.or_eq_true, beq_iff_eq,
    deltaOf, List.filterMap_cons, List.filterMap_nil]

set_option maxHeartbeats 1600000 in
theorem c2_st2 : packFinal c2T c2Boxes [0, 1] =
    ⟨[⟨⟨0, 0, 0, 1, 1, 1⟩, "A", 1/10^9, 1/10^8, 11/10^9⟩,
      ⟨⟨0, 1, 0, 1, 1, 1⟩, "B", 11/10^9, 33/500000000, 0⟩],
     [⟨0, 0, 0⟩, ⟨0, 0, 1⟩, ⟨0, 1, 0⟩, ⟨1, 0, 0⟩, ⟨1, 1, 0⟩, ⟨0, 1, 1⟩, ⟨0, 2, 0⟩],
     2499999997/250000000,
     [⟨"A", 0, 0, 0, 1, 1, 1⟩, ⟨"B", 0, 1, 0, 1, 1, 1⟩], [], 2, 3/250000000⟩ := by
  have h01 : packFinal c2T c2Boxes [0, 1] =
      packStep c2T c2Boxes (packFinal c2T c2Boxes [0]) 1 := rfl
  rw [h01, c2_st1]
  norm_num [packStep, unique_candidates, dedupAdj, dedupAdjFrom,
    sortOrd, insertOrd, keyLt, quantKey, llround, yzxLt, kMaxCandidates, pairsFor, rotsOf,
    sweep, sweepStep, inside_truck, collides_any, intersects, support_ok_and_apply_load,
    centroidOk, crushFail, sharesFor, supportsFor, sumAreas, shareOf, baseAreaOf, enumL,
    overlap_area_xz, overlap_1d, point_in_overlap_xz, fabs, applyLoads, rollback_loads,
    addLoadAt, better, max_load_for, add_candidate, volume, kEps, eps9, epsFace,
    kMinSupportRatio, kMaxStackMultiplier, kMaxPressure, dummyBox, dummyPlaced,
    min_def, max_def, c2T, c2Boxes, Bool.and_eq_true, Bool.or_eq_true, beq_iff_eq,
    deltaOf, List.filterMap_cons, List.filterMap_nil]

theorem claim2_crush_amended_witness :
    (⟨⟨0, 0, 0, 1, 1, 1⟩, "A", 1/10^9, 1/10^8, 11/10^9⟩ : PlacedState).load_on_top ≤
      max kEps
        (min ((⟨⟨0, 0, 0, 1, 1, 1⟩, "A", 1/10^9, 1/10^8, 11/10^9⟩ : PlacedState).weight *
            kMaxStackMultiplier)
          ((⟨⟨0, 0, 0, 1, 1, 1⟩, "A", 1/10^9, 1/10^8, 11/10^9⟩ : PlacedState).box.w *
            (⟨⟨0, 0, 0, 1, 1, 1⟩, "A", 1/10^9, 1/10^8, 11/10^9⟩ : PlacedState).box.d *
            kMaxPressure)) + eps9 :=
  claim2_crush_amended c2T c2Boxes [0, 1] (by norm_num [c2T])
    (by
      intro b hb
      rcases List.mem_cons.mp hb with rfl | hb
      · norm_num
      rcases List.mem_cons.mp hb with rfl | hb
      · norm_num
      exact absurd hb (List.not_mem_nil b))
    (by decide)
    ⟨⟨0, 0, 0, 1, 1, 1⟩, "A", 1/10^9, 1/10^8, 11/10^9⟩
    (by rw [c2_st2]; exact List.mem_cons_self _ _)

/-- C2 is refuted as stated: in the run over valid truck `c2T`, valid boxes
`c2Boxes`, and the permutation order `[0, 1]`, the placed base box `A` ends
with accumulated `load_on_top = 1.1e-8`, strictly above
`min(6·weight, base_area·2500) = 6e-9` — and even above that bound plus the
1e-9 slack — because `max_load_for` floors the budget at `kEps = 1e-8` and
the crush check allows `load + share ≤ max_load + 1e-9`. -/
theorem claim2_crush_counterexample :
    (0 < c2T.w ∧ 0 < c2T.h ∧ 0 < c2T.d ∧ 0 < c2T.max_weight) ∧
    (∀ b ∈ c2Boxes, 0 < b.w ∧ 0 < b.h ∧ 0 < b.d ∧ 0 ≤ b.weight) ∧
    List.Perm [0, 1] (List.range c2Boxes.length) ∧
    (packFinal c2T c2Boxes [0, 1]).placed.getD 0 dummyPlaced =
      ⟨⟨0, 0, 0, 1, 1, 1⟩, "A", 1/10^9, 1/10^8, 11/10^9⟩ ∧
    min (((packFinal c2T c2Boxes [0, 1]).placed.getD 0 dummyPlaced).weight *
        kMaxStackMultiplier)
      ((((packFinal c2T c2Boxes [0, 1]).placed.getD 0 dummyPlaced).box.w *
          ((packFinal c2T c2Boxes [0, 1]).placed.getD 0 dummyPlaced).box.d) *
        kMaxPressure) + eps9 <
      ((packFinal c2T c2Boxes [0, 1]).placed.getD 0 dummyPlaced).load_on_top := by
  refine ⟨by norm_num [c2T], ?_, by decide, ?_, ?_⟩
  · intro b hb
    rcases List.mem_cons.mp hb with rfl | hb
    · norm_num
    rcases List.mem_cons.mp hb with rfl | hb
    · norm_num
    exact absurd hb (List.not_mem_nil b)
  · rw [c2_st2]
    rfl
  · rw [c2_st2]
    norm_num [kMaxStackMultiplier, kMaxPressure, eps9, min_def, dummyPlaced]

/-! ## C10 helper lemmas -/

/-- The genes committed so far in a partially built child. -/
def somesOf (l : List (Option ℕ)) : List ℕ := l.filterMap id

theorem somesOf_nil : somesOf [] = [] := rfl

theorem somesOf_cons_none (t : List (Option ℕ)) : somesOf (none :: t) = somesOf t := rfl

theorem somesOf_cons_some (v : ℕ) (t : List (Option ℕ)) :
    somesOf (some v :: t) = v :: somesOf t := rfl

theorem somesOf_length_le (l : List (Option ℕ)) : (somesOf l).length ≤ l.length :=
  List.length_filterMap_le _ _

/-- A child with fewer committed genes than slots has an unfilled slot. -/
theorem exists_none_slot (l : List (Option ℕ)) (h : (somesOf l).length < l.length) :
    ∃ idx, idx < l.length ∧ l.getD idx none = none := by
  induction l with
  | nil => exact absurd h (by simp)
  | cons x t ih =>
    cases x with
    | none => exact ⟨0, Nat.succ_pos _, rfl⟩
    | some v =>
      rw [somesOf_cons_some] at h
      obtain ⟨idx, hlt, hnone⟩ := ih (by simpa using h)
      exact ⟨idx + 1, Nat.succ_lt_succ hlt, hnone⟩

/-- Setting an unfilled slot commits exactly one more gene. -/
theorem somesOf_set (l : List (Option ℕ)) (idx g : ℕ) (hidx : idx < l.length)
    (hnone : l.getD idx none = none) :
    List.Perm (somesOf (l.set idx (some g))) (g :: somesOf l) := by
  induction l generalizing idx with
  | nil => exact absurd hidx (Nat.not_lt_zero idx)
  | cons x t ih =>
    cases idx with
    | zero =>
      have hx : x = none := hnone
      subst hx
      rw [List.set_cons_zero, somesOf_cons_some, somesOf_cons_none]
    | succ m =>
      have hperm := ih m (Nat.lt_of_succ_lt_succ hidx) hnone
      rw [List.set_cons_succ]
      cases x with
      | none =>
        rw [somesOf_cons_none, somesOf_cons_none]
        exact hperm
      | some v =>
        rw [somesOf_cons_some, somesOf_cons_some]
        exact (hperm.cons v).trans (List.Perm.swap g v _)

/-- Setting one slot leaves every other slot unchanged. -/
theorem getD_set_ne (l : List (Option ℕ)) (idx k : ℕ) (v : Option ℕ) (hne : k ≠ idx) :
    (l.set idx v).getD k none = l.getD k none := by
  rw [List.getD_eq_getElem?_getD, List.getD_eq_getElem?_getD,
    List.getElem?_set_ne (fun he => hne he.symm)]

/-- The write pointer scan: it never moves backwards, stops at an unfilled
slot (or the end), skips only filled slots, and stops no later than any
unfilled slot at or beyond the start. -/
theorem advW_spec_aux (child : List (Option ℕ)) :
    ∀ (fuel w : ℕ), child.length - w ≤ fuel →
      w ≤ advW child w ∧
      (advW child w < child.length → child.getD (advW child w) none = none) ∧
      (∀ k, w ≤ k → k < advW child w → (child.getD k none).isSome = true) ∧
      (∀ idx, w ≤ idx → idx < child.length → child.getD idx none = none →
        advW child w ≤ idx) := by
  intro fuel
  induction fuel with
  | zero =>
    intro w hw
    have hlen : child.length ≤ w := by omega
    have hcond : ¬ (w < child.length ∧ (child.getD w none).isSome = true) := by
      intro hc
      omega
    rw [advW, dif_neg hcond]
    refine ⟨le_rfl, fun hlt => absurd hlt (by omega), fun k hk1 hk2 => absurd hk1 (by omega),
      fun idx hi1 hi2 _ => hi1⟩
  | succ f ih =>
    intro w hw
    by_cases hc : w < child.length ∧ (child.getD w none).isSome = true
    · rw [advW, dif_pos hc]
      obtain ⟨h1, h2, h3, h4⟩ := ih (w + 1) (by omega)
      refine ⟨by omega, h2, ?_, ?_⟩
      · intro k hk1 hk2
        rcases Nat.eq_or_lt_of_le hk1 with rfl | hk1'
        · exact hc.2
        · exact h3 k hk1' hk2
      · intro idx hi1 hi2 hnone
        have hne : idx ≠ w := by
          intro he
          rw [he] at hnone
          rw [hnone] at hc
          exact Bool.noConfusion hc.2
        exact h4 idx (by omega) hi2 hnone
    · rw [advW, dif_neg hc]
      refine ⟨le_rfl, ?_, fun k hk1 hk2 => absurd hk1 (by omega), fun idx hi1 _ _ => hi1⟩
      intro hlt
      have : ¬ (child.getD w none).isSome = true := fun hs => hc ⟨hlt, hs⟩
      exact Option.not_isSome_iff_eq_none.mp this

theorem advW_spec (child : List (Option ℕ)) (w : ℕ) :
    w ≤ advW child w ∧
    (advW child w < child.length → child.getD (advW child w) none = none) ∧
    (∀ k, w ≤ k → k < advW child w → (child.getD k none).isSome = true) ∧
    (∀ idx, w ≤ idx → idx < child.length → child.getD idx none = none →
      advW child w ≤ idx) :=
  advW_spec_aux child (child.length - w) w le_rfl

/-- One `placeGene` step on a child with room: the gene lands in the first
unfilled slot, every filled slot is untouched, and the committed multiset
grows by exactly the placed gene. -/
theorem placeGene_spec (child : List (Option ℕ)) (w g : ℕ)
    (hfill : ∀ k, k < w → (child.getD k none).isSome = true)
    (hroom : (somesOf child).length < child.length) :
    (placeGene (child, w) g).1.length = child.length ∧
    (∀ k, k < (placeGene (child, w) g).2 →
      ((placeGene (child, w) g).1.getD k none).isSome = true) ∧
    List.Perm (somesOf (placeGene (child, w) g).1) (g :: somesOf child) ∧
    (∀ k, (child.getD k none).isSome = true →
      (placeGene (child, w) g).1.getD k none = child.getD k none) := by
  obtain ⟨hw1, hw2, hw3, hw4⟩ := advW_spec child w
  obtain ⟨idx, hidx, hnone⟩ := exists_none_slot child hroom
  have hwidx : w ≤ idx := by
    by_contra hlt
    have := hfill idx (by omega)
    rw [hnone] at this
    exact Bool.noConfusion this
  have hlt : advW child w < child.length :=
    Nat.lt_of_le_of_lt (hw4 idx hwidx hidx hnone) hidx
  have hpg : placeGene (child, w) g = (child.set (advW child w) (some g), advW child w) := by
    rw [placeGene]
    exact if_pos hlt
  rw [hpg]
  have hatw : child.getD (advW child w) none = none := hw2 hlt
  refine ⟨List.length_set .., ?_, ?_, ?_⟩
  · intro k hk
    rw [getD_set_ne child (advW child w) k (some g) (by omega)]
    rcases Nat.lt_or_ge k w with hk' | hk'
    · exact hfill k hk'
    · exact hw3 k hk' hk
  · exact somesOf_set child (advW child w) g hlt hatw
  · intro k hks
    have hne : k ≠ advW child w := by
      intro he
      rw [he, hatw] at hks
      exact Bool.noConfusion hks
    exact getD_set_ne child (advW child w) k (some g) hne

/-- Folding `placeGene` over exactly as many genes as there are unfilled
slots fills the child: length is preserved, the committed multiset is the
old one plus all the genes, and filled slots keep their values. -/
theorem foldPlace_spec (gs : List ℕ) : ∀ (child : List (Option ℕ)) (w : ℕ),
    (∀ k, k < w → (child.getD k none).isSome = true) →
    (somesOf child).length + gs.length = child.length →
    (gs.foldl placeGene (child, w)).1.length = child.length ∧
    List.Perm (somesOf (gs.foldl placeGene (child, w)).1) (somesOf child ++ gs) ∧
    (∀ k, (child.getD k none).isSome = true →
      (gs.foldl placeGene (child, w)).1.getD k none = child.getD k none) := by
  induction gs with
  | nil =>
    intro child w _ _
    exact ⟨rfl, by simp [List.foldl_nil], fun k _ => rfl⟩
  | cons g rest ih =>
    intro child w hfill hcap
    have hroom : (somesOf child).length < child.length := by
      have := hcap
      simp only [List.length_cons] at this
      omega
    obtain ⟨hlen, hfill', hperm, hpres⟩ := placeGene_spec child w g hfill hroom
    have hlenp : (somesOf (placeGene (child, w) g).1).length = (somesOf child).length + 1 := by
      rw [hperm.length_eq, List.length_cons]
    have hcap' : (somesOf (placeGene (child, w) g).1).length + rest.length =
        (placeGene (child, w) g).1.length := by
      rw [hlenp, hlen]
      simp only [List.length_cons] at hcap
      omega
    obtain ⟨ihlen, ihperm, ihpres⟩ :=
      ih (placeGene (child, w) g).1 (placeGene (child, w) g).2 hfill' hcap'
    rw [List.foldl_cons]
    refine ⟨by rw [ihlen, hlen], ?_, ?_⟩
    · refine ihperm.trans ?_
      refine ((hperm.append_right rest).trans ?_)
      exact (List.perm_middle).symm
    · intro k hks
      have hpk := hpres k hks
      have hks' : ((placeGene (child, w) g).1.getD k none).isSome = true := by
        rw [hpk]
        exact hks
      rw [ihpres k hks', hpk]

theorem initChild_length (a : List ℕ) (n i j : ℕ) : (initChild a n i j).length = n := by
  simp [initChild]

theorem initChild_getD (a : List ℕ) (n i j k : ℕ) (hk : k < n) :
    (initChild a n i j).getD k none =
      if i ≤ k ∧ k ≤ j then some (a.getD k 0) else none := by
  rw [initChild, List.getD_eq_getElem?_getD, List.getElem?_map, List.getElem?_range hk]
  rfl

/-- A take of consecutive entries, written with explicit indices. -/
theorem take_drop_eq_map_range (a : List ℕ) (i m : ℕ) (hm : i + m ≤ a.length) :
    (a.drop i).take m = (List.range m).map fun t => a.getD (i + t) 0 := by
  refine List.ext_getElem ?_ ?_
  · rw [List.length_take, List.length_drop, List.length_map, List.length_range]
    omega
  · intro t h1 h2
    have hlt : t < m := by
      rw [List.length_take, List.length_drop] at h1
      omega
    have hital : i + t < a.length := by omega
    rw [List.getElem_take, List.getElem_drop]
    rw [List.getElem_map, List.getElem_range]
    rw [List.getD_eq_getElem?_getD, List.getElem?_eq_getElem hital, Option.getD_some]

theorem filterMap_all_none {f : ℕ → Option ℕ} :
    ∀ (l : List ℕ), (∀ x ∈ l, f x = none) → List.filterMap f l = [] := by
  intro l h
  exact List.filterMap_eq_nil_iff.mpr h

theorem filterMap_all_some {f : ℕ → Option ℕ} {g : ℕ → ℕ} :
    ∀ (l : List ℕ), (∀ x ∈ l, f x = some (g x)) → List.filterMap f l = l.map g := by
  intro l
  induction l with
  | nil => intro _; rfl
  | cons x t ih =>
    intro h
    rw [List.filterMap_cons, h x (List.mem_cons_self x t), List.map_cons,
      ih fun y hy => h y (List.mem_cons_of_mem x hy)]

/-- The committed genes of the freshly initialised child are exactly the
copied slice `a[i..j]`. -/
theorem somesOf_initChild (a : List ℕ) (n i j : ℕ) (hij : i ≤ j) (hj : j < n)
    (hlen : a.length = n) :
    somesOf (initChild a n i j) = sliceOf a i j := by
  have hsplit1 : List.range n = (List.range' 0 i ++ List.range' i (j + 1 - i)) ++
      List.range' (j + 1) (n - (j + 1)) := by
    have e1 := List.range'_append_1 0 i (j + 1 - i)
    rw [Nat.zero_add] at e1
    have e1' : j + 1 - i + i = j + 1 := by omega
    rw [e1'] at e1
    have e2 := List.range'_append_1 0 (j + 1) (n - (j + 1))
    rw [Nat.zero_add] at e2
    have e2' : n - (j + 1) + (j + 1) = n := by omega
    rw [e2'] at e2
    rw [List.range_eq_range', ← e2, ← e1]
  rw [somesOf, initChild, List.filterMap_map, hsplit1]
  rw [List.filterMap_append, List.filterMap_append]
  have hf1 : List.filterMap
      (id ∘ fun k => if i ≤ k ∧ k ≤ j then some (a.getD k 0) else none)
      (List.range' 0 i) = [] := by
    refine filterMap_all_none _ ?_
    intro x hx
    obtain ⟨t, ht, rfl⟩ := List.mem_range'.mp hx
    have : ¬ (i ≤ 0 + 1 * t ∧ 0 + 1 * t ≤ j) := by omega
    simp only [Function.comp_apply, if_neg this, id_eq]
  have hf3 : List.filterMap
      (id ∘ fun k => if i ≤ k ∧ k ≤ j then some (a.getD k 0) else none)
      (List.range' (j + 1) (n - (j + 1))) = [] := by
    refine filterMap_all_none _ ?_
    intro x hx
    obtain ⟨t, ht, rfl⟩ := List.mem_range'.mp hx
    have : ¬ (i ≤ j + 1 + 1 * t ∧ j + 1 + 1 * t ≤ j) := by omega
    simp only [Function.comp_apply, if_neg this, id_eq]
  have hf2 : List.filterMap
      (id ∘ fun k => if i ≤ k ∧ k ≤ j then some (a.getD k 0) else none)
      (List.range' i (j + 1 - i)) = (List.range' i (j + 1 - i)).map fun k => a.getD k 0 := by
    refine filterMap_all_some _ ?_
    intro x hx
    obtain ⟨t, ht, rfl⟩ := List.mem_range'.mp hx
    have : i ≤ i + 1 * t ∧ i + 1 * t ≤ j := by omega
    simp only [Function.comp_apply, if_pos this, id_eq]
  rw [hf1, hf2, hf3, List.nil_append, List.append_nil]
  rw [sliceOf, take_drop_eq_map_range a i (j + 1 - i) (by omega)]
  rw [List.range'_eq_map_range, List.map_map]
  rfl

/-- A fully committed child reads back as its gene list. -/
theorem map_getD_eq_somesOf (l : List (Option ℕ)) (h : (somesOf l).length = l.length) :
    (l.map fun o => o.getD kSentinel) = somesOf l := by
  induction l with
  | nil => rfl
  | cons x t ih =>
    cases x with
    | none =>
      rw [somesOf_cons_none] at h
      have hle := somesOf_length_le t
      rw [List.length_cons] at h
      omega
    | some v =>
      rw [somesOf_cons_some] at h ⊢
      rw [List.length_cons, List.length_cons] at h
      rw [List.map_cons, ih (Nat.succ_injective h)]
      rfl

theorem getD_map_getD (l : List (Option ℕ)) :
    ∀ k, k < l.length →
      (l.map fun o => o.getD kSentinel).getD k 0 = (l.getD k none).getD kSentinel := by
  induction l with
  | nil => intro k hk; exact absurd hk (Nat.not_lt_zero k)
  | cons x t ih =>
    intro k hk
    cases k with
    | zero => rfl
    | succ m => exact ih m (Nat.lt_of_succ_lt_succ hk)

/-- The slice plus the complement of the slice inside `range n` is a
permutation of `range n`. -/
theorem slice_compl_perm (s : List ℕ) (n : ℕ) (hnd : s.Nodup)
    (hsub : ∀ x ∈ s, x ∈ List.range n) :
    List.Perm (s ++ (List.range n).filter fun g => decide (¬ g ∈ s)) (List.range n) := by
  have hnd2 : ((List.range n).filter fun g => decide (¬ g ∈ s)).Nodup :=
    List.Nodup.filter _ (List.nodup_range n)
  have hndl : (s ++ (List.range n).filter fun g => decide (¬ g ∈ s)).Nodup := by
    rw [List.nodup_append]
    refine ⟨hnd, hnd2, ?_⟩
    intro x hxs hxf
    have := List.of_mem_filter hxf
    rw [decide_eq_true_eq] at this
    exact this hxs
  refine (List.perm_ext_iff_of_nodup hndl (List.nodup_range n)).mpr ?_
  intro x
  simp only [List.mem_append, List.mem_filter, decide_eq_true_eq]
  constructor
  · rintro (hx | ⟨hx, _⟩)
    · exact hsub x hx
    · exact hx
  · intro hx
    by_cases hxs : x ∈ s
    · exact Or.inl hxs
    · exact Or.inr ⟨hx, hxs⟩

/-- Skipping genes of `used` in the fold is folding over the filtered list. -/
theorem foldl_skip_eq_filter {α : Type} (used : List ℕ) (f : α → ℕ → α) :
    ∀ (b : List ℕ) (s : α),
      b.foldl (fun cw g => if g ∈ used then cw else f cw g) s =
      (b.filter fun g => decide (¬ g ∈ used)).foldl f s := by
  intro b
  induction b with
  | nil => intro s; rfl
  | cons g gs ih =>
    intro s
    rw [List.foldl_cons, List.filter_cons]
    by_cases hg : g ∈ used
    · rw [if_pos hg]
      have hd : (decide (¬ g ∈ used)) = false := by
        simp [hg]
      rw [hd, if_neg Bool.false_ne_true]
      exact ih s
    · rw [if_neg hg]
      have hd : (decide (¬ g ∈ used)) = true := by
        simp [hg]
      rw [hd, if_pos rfl, List.foldl_cons]
      exact ih (f s g)

/-- C10: for any two parent orders that are permutations of `range n` and
cut indices `i ≤ j < n`, the ordered-crossover child is again a
permutation of `range n`, and positions `i..j` hold parent `a`'s genes at
those positions. -/
theorem claim10_crossover_permutation (a b : List ℕ) (n i j : ℕ)
    (ha : List.Perm a (List.range n)) (hb : List.Perm b (List.range n))
    (hij : i ≤ j) (hj : j < n) :
    List.Perm (crossoverOrder a b n i j) (List.range n) ∧
    (∀ k, i ≤ k → k ≤ j → (crossoverOrder a b n i j).getD k 0 = a.getD k 0) := by
  have halen : a.length = n := ha.length_eq.trans (List.length_range n)
  have hblen : b.length = n := hb.length_eq.trans (List.length_range n)
  set used := sliceOf a i j with hused
  have hand : a.Nodup := (ha.symm).nodup (List.nodup_range n)
  have hsl : List.Sublist used a :=
    List.Sublist.trans (List.take_sublist _ _) (List.drop_sublist i a)
  have hund : used.Nodup := hsl.nodup hand
  have husub : ∀ x ∈ used, x ∈ List.range n := fun x hx =>
    (ha.mem_iff).mp (hsl.subset hx)
  have hkey := slice_compl_perm used n hund husub
  have huslen : used.length = j + 1 - i := by
    rw [hused, sliceOf, List.length_take, List.length_drop, halen]
    omega
  have hflen : ((List.range n).filter fun g => decide (¬ g ∈ used)).length =
      n - (j + 1 - i) := by
    have := hkey.length_eq
    rw [List.length_append, List.length_range, huslen] at this
    omega
  set gs := b.filter fun g => decide (¬ g ∈ used) with hgs
  have hgsperm : List.Perm gs ((List.range n).filter fun g => decide (¬ g ∈ used)) :=
    hb.filter _
  have hgslen : gs.length = n - (j + 1 - i) := hgsperm.length_eq.trans hflen
  have hsome0 : somesOf (initChild a n i j) = used :=
    somesOf_initChild a n i j hij hj halen
  have hcap : (somesOf (initChild a n i j)).length + gs.length =
      (initChild a n i j).length := by
    rw [hsome0, huslen, hgslen, initChild_length]
    omega
  obtain ⟨hlenF, hpermF, hpresF⟩ := foldPlace_spec gs (initChild a n i j) 0
    (fun k hk => absurd hk (Nat.not_lt_zero k)) hcap
  have hcx : crossoverOrder a b n i j =
      ((gs.foldl placeGene (initChild a n i j, 0)).1.map fun o => o.getD kSentinel) := by
    rw [crossoverOrder]
    rw [foldl_skip_eq_filter used placeGene b (initChild a n i j, 0)]
  set F := (gs.foldl placeGene (initChild a n i j, 0)).1 with hF
  have hFsl : (somesOf F).length = F.length := by
    rw [hpermF.length_eq, List.length_append, hsome0, hlenF, initChild_length, huslen, hgslen]
    omega
  have hmap : crossoverOrder a b n i j = somesOf F := by
    rw [hcx]
    exact map_getD_eq_somesOf F hFsl
  constructor
  · rw [hmap]
    refine hpermF.trans ?_
    rw [hsome0]
    exact ((List.Perm.append_left used hgsperm).trans hkey)
  · intro k hik hkj
    have hkn : k < n := by omega
    have hinit : (initChild a n i j).getD k none = some (a.getD k 0) := by
      rw [initChild_getD a n i j k hkn, if_pos ⟨hik, hkj⟩]
    have hinits : ((initChild a n i j).getD k none).isSome = true := by
      rw [hinit]
      rfl
    have hFk : F.getD k none = some (a.getD k 0) := by
      rw [hpresF k hinits, hinit]
    rw [hcx, getD_map_getD F k (by rw [hlenF, initChild_length]; exact hkn), hFk]
    rfl

theorem claim10_witness :
    List.Perm (crossoverOrder [1, 0] [0, 1] 2 0 1) (List.range 2) ∧
    (∀ k, 0 ≤ k → k ≤ 1 → (crossoverOrder [1, 0] [0, 1] 2 0 1).getD k 0 =
      ([1, 0] : List ℕ).getD k 0) :=
  claim10_crossover_permutation [1, 0] [0, 1] 2 0 1 (by decide) (by decide)
    (by decide) (by decide)

end VL
